import Mathlib

/-!
# Verification of the drcov coverage-file codec

A shallow embedding of the drcov library (`src/lib.rs`): a codec for the
DrCov coverage-trace format (text header, versioned module table, binary
basic-block table), together with its validator and lookup layer.

Byte streams are modelled as `List Nat` (each element one byte value);
Rust machine integers are modelled as `Nat` (resp. `Int` for `i32`) with
explicit range bounds where overflow or parse bounds matter.  Fallible
Rust functions returning `Result` are modelled with `Except`; the error
messages built with `format!` in the source are modelled as structured
constructors carrying exactly the values interpolated in the source.
`to_writer` is modelled as returning the pair of the bytes actually
written and an optional error, so that "nothing is written on error" is
expressible.
-/

namespace Drcov

/-- Byte strings: a list of byte values (`0 ≤ b < 256` for genuine bytes). -/
abbrev Str := List Nat

/-- ASCII bytes of a (pure-ASCII) Lean string literal; used only to spell
out the literal strings appearing in the source. -/
def strBytes (s : String) : Str := s.data.map Char.toNat

/-- Whitespace test matching `char::is_whitespace` on the ASCII range
(space, tab, newline, vertical tab, form feed, carriage return). -/
def isWsByte (b : Nat) : Bool :=
  b = 32 || b = 9 || b = 10 || b = 11 || b = 12 || b = 13

/-- `str::trim_start` (ASCII fragment). -/
def trimStart (l : Str) : Str := l.dropWhile isWsByte

/-- `str::trim_end` (ASCII fragment). -/
def trimEnd (l : Str) : Str := (l.reverse.dropWhile isWsByte).reverse

/-- `str::trim` (ASCII fragment). -/
def trim (l : Str) : Str := trimEnd (trimStart l)

/-- `str::strip_prefix`: remove a literal leading pattern, or fail. -/
def dropPfx? (p l : Str) : Option Str :=
  if p.isPrefixOf l then some (l.drop p.length) else none

/-- `str::strip_suffix` of a single trailing newline. -/
def stripNl (l : Str) : Str :=
  if l.getLast? = some 10 then l.dropLast else l

/-- `BufRead::read_line`: consume bytes up to and including the first
newline (or to the end of the stream), returning the line and the rest. -/
def readLine : Str → Str × Str
  | [] => ([], [])
  | b :: r =>
    if b = 10 then ([10], r)
    else
      let p := readLine r
      (b :: p.1, p.2)

/-- Worker for bounded comma split: `k` is the number of splits still
allowed; when it reaches zero further commas stay in the current piece. -/
def splitnGo : Nat → Str → Str → List Str
  | _, acc, [] => [acc.reverse]
  | k, acc, b :: r =>
    if b = 44 then
      match k with
      | 0 => splitnGo 0 (b :: acc) r
      | k' + 1 => acc.reverse :: splitnGo k' [] r
    else splitnGo k (b :: acc) r

/-- `str::splitn(n, ',')`: at most `n` pieces, the last piece absorbing
any remaining commas; `splitn(0, _)` yields nothing, like Rust's. -/
def splitnComma (n : Nat) (l : Str) : List Str :=
  match n with
  | 0 => []
  | n' + 1 => splitnGo n' [] l

/-- `str::split(',')`: unbounded comma split. -/
def splitComma (l : Str) : List Str := splitnGo l.length [] l

/-- First token of `str::split_whitespace` (empty if none). -/
def firstWsToken (l : Str) : Str :=
  (l.dropWhile isWsByte).takeWhile (fun b => !isWsByte b)

/-- The ASCII byte for digit value `d` (lowercase above nine). -/
def natToDigitByte (d : Nat) : Nat := if d < 10 then 48 + d else 87 + d

/-- Fuel-driven base conversion accumulating most-significant-first. -/
def toBaseAux (base : Nat) : Nat → Nat → Str → Str
  | 0, _, acc => acc
  | fuel + 1, n, acc =>
    if n = 0 then acc
    else toBaseAux base fuel (n / base) (natToDigitByte (n % base) :: acc)

/-- Digits of `n` in `base`, most significant first, `"0"` for zero. -/
def natToBase (base n : Nat) : Str :=
  if n = 0 then [48] else toBaseAux base n n []

/-- Decimal rendering, as produced by `Display` on unsigned integers. -/
def decRepr (n : Nat) : Str := natToBase 10 n

/-- Lowercase hex rendering, as produced by the Rust format spec `x`. -/
def hexRepr (n : Nat) : Str := natToBase 16 n

/-- The Rust format `0x` followed by `n`'s hex zero-padded to width `w`. -/
def hexPad (w n : Nat) : Str :=
  [48, 120] ++ List.replicate (w - (hexRepr n).length) 48 ++ hexRepr n

/-- `Display` for `i32`: optional minus sign then decimal digits. -/
def i32Repr (c : Int) : Str :=
  if c < 0 then 45 :: decRepr c.natAbs else decRepr c.toNat

/-- A decimal digit byte's value. -/
def decDigit? (b : Nat) : Option Nat :=
  if 48 ≤ b ∧ b ≤ 57 then some (b - 48) else none

/-- A hex digit byte's value (`0-9`, `a-f`, `A-F`). -/
def hexDigit? (b : Nat) : Option Nat :=
  if 48 ≤ b ∧ b ≤ 57 then some (b - 48)
  else if 97 ≤ b ∧ b ≤ 102 then some (b - 87)
  else if 65 ≤ b ∧ b ≤ 70 then some (b - 55)
  else none

/-- Accumulate digit values left to right; fails on any non-digit. -/
def parseDigitsAux (digit? : Nat → Option Nat) (base : Nat) : Str → Nat → Option Nat
  | [], acc => some acc
  | b :: r, acc =>
    match digit? b with
    | none => none
    | some d => parseDigitsAux digit? base r (acc * base + d)

/-- An optional single leading `+` sign, as accepted by Rust's unsigned
`from_str_radix`. -/
def stripPlus : Str → Str
  | [] => []
  | b :: r => if b = 43 then r else b :: r

/-- The common core of Rust's unsigned `from_str_radix`: an optional
leading `+`, then a nonempty run of digits, within the type's bound
(overflow during Rust's accumulation is exactly the final bound check). -/
def parseUnsigned (digit? : Nat → Option Nat) (base bound : Nat) (s : Str) : Option Nat :=
  let t := stripPlus s
  if t = [] then none
  else (parseDigitsAux digit? base t 0).bind fun v =>
    if v < bound then some v else none

/-- `str::trim_start_matches("0x")`: strips every leading `0x`. -/
def strip0x : Str → Str
  | a :: b :: r => if a = 48 ∧ b = 120 then strip0x r else a :: b :: r
  | l => l

/-- `u64::from_str_radix(s.trim_start_matches("0x"), 16)`. -/
def hexU64? (s : Str) : Option Nat :=
  parseUnsigned hexDigit? 16 (2 ^ 64) (strip0x s)

/-- `u32::from_str_radix(s.trim_start_matches("0x"), 16)`. -/
def hexU32? (s : Str) : Option Nat :=
  parseUnsigned hexDigit? 16 (2 ^ 32) (strip0x s)

/-- `s.parse::<u32>()`. -/
def decU32? (s : Str) : Option Nat :=
  parseUnsigned decDigit? 10 (2 ^ 32) s

/-- `s.parse::<usize>()` on a 64-bit target. -/
def decUsize? (s : Str) : Option Nat :=
  parseUnsigned decDigit? 10 (2 ^ 64) s

/-- Nonempty run of decimal digits (shared by the signed parse). -/
def decDigitsVal? (s : Str) : Option Nat :=
  if s = [] then none else parseDigitsAux decDigit? 10 s 0

/-- `s.parse::<i32>()`: optional sign, decimal digits, `i32` bounds. -/
def parseI32 (s : Str) : Option Int :=
  match s with
  | [] => none
  | b :: r =>
    if b = 43 then
      (decDigitsVal? r).bind fun v => if v < 2 ^ 31 then some (Int.ofNat v) else none
    else if b = 45 then
      (decDigitsVal? r).bind fun v => if v ≤ 2 ^ 31 then some (-(Int.ofNat v)) else none
    else
      (decDigitsVal? (b :: r)).bind fun v => if v < 2 ^ 31 then some (Int.ofNat v) else none

/-! ## The data model (`FileHeader`, `ModuleTableVersion`, `ModuleEntry`,
`BasicBlock`, `CoverageData`) -/

/-- `consts::SUPPORTED_FILE_VERSION`. -/
def SUPPORTED_FILE_VERSION : Nat := 2

/-- `consts::VERSION_PREFIX`. -/
def versionPfx : Str := strBytes "DRCOV VERSION: "

/-- `consts::FLAVOR_PREFIX`. -/
def flavorPfx : Str := strBytes "DRCOV FLAVOR: "

/-- `consts::MODULE_TABLE_PREFIX`. -/
def moduleTablePfx : Str := strBytes "Module Table: "

/-- `consts::BB_TABLE_PREFIX`. -/
def bbTablePfx : Str := strBytes "BB Table: "

/-- `consts::COLUMNS_PREFIX`. -/
def columnsPfx : Str := strBytes "Columns: "

/-- `FileHeader`: outer version (`u32`) and flavor string. -/
structure FileHeader where
  version : Nat
  flavor : Str
deriving DecidableEq, Repr

/-- `ModuleTableVersion`: the four module-table schema versions. -/
inductive ModuleTableVersion where
  | Legacy
  | V2
  | V3
  | V4
deriving DecidableEq, Repr

/-- The Rust discriminant (`Legacy = 1`, …, `V4 = 4`); also drives the
derived `PartialOrd`/`Ord` comparisons in the source. -/
def ModuleTableVersion.toNat : ModuleTableVersion → Nat
  | .Legacy => 1
  | .V2 => 2
  | .V3 => 3
  | .V4 => 4

/-- `ModuleEntry`: one loaded module.  `end_` models the Rust field
`end`; numeric fields are `u32`/`u64`/`i32` values as `Nat`/`Int`. -/
structure ModuleEntry where
  id : Nat := 0
  base : Nat := 0
  end_ : Nat := 0
  entry : Nat := 0
  path : Str := []
  containing_id : Option Int := none
  offset : Option Nat := none
  checksum : Option Nat := none
  timestamp : Option Nat := none
deriving DecidableEq, Repr

/-- `ModuleEntry::contains_address`. -/
def ModuleEntry.contains_address (m : ModuleEntry) (addr : Nat) : Bool :=
  decide (addr ≥ m.base) && decide (addr < m.end_)

/-- `ModuleEntry::size` (`end.saturating_sub(base)`). -/
def ModuleEntry.size (m : ModuleEntry) : Nat := m.end_ - m.base

/-- `BasicBlock`: `u32` start offset, `u16` size, `u16` module id. -/
structure BasicBlock where
  start : Nat
  size : Nat
  module_id : Nat
deriving DecidableEq, Repr

/-- `CoverageData`: the aggregate. -/
structure CoverageData where
  header : FileHeader
  module_version : ModuleTableVersion
  modules : List ModuleEntry
  basic_blocks : List BasicBlock
deriving DecidableEq, Repr

/-! ## Errors

Each constructor corresponds to one error-construction site in the
source; the arguments are the values interpolated into the `format!`
message at that site. -/

/-- The two `ValidationError` messages of `CoverageData::validate`. -/
inductive ValMsg where
  | nonSequentialModuleId (id idx : Nat)
  | invalidBlockModuleId (module_id : Nat)
deriving DecidableEq, Repr

/-- The `InvalidFormat` messages. -/
inductive FmtMsg where
  | malformedVersionNumber
  | eofExpecting (pfx : Str)
  | invalidHeaderLine (pfx : Str)
deriving DecidableEq, Repr

/-- The `InvalidModuleTable` messages. -/
inductive MtMsg where
  | missingOrMalformedHeader
  | invalidVersionedHeaderFormat
  | invalidVersionNumber
  | missingCount
  | invalidCountValue
  | unsupportedModuleTableVersion (v : Nat)
  | invalidLegacyCount
  | missingColumnsHeader
  | nonSequentialModuleId (expected got : Nat)
  | columnCountMismatch (line : Str)
  | missingOrInvalidId
deriving DecidableEq, Repr

/-- The `InvalidBbTable` messages. -/
inductive BbMsg where
  | missingOrMalformedHeader
  | invalidBlockCount
deriving DecidableEq, Repr

/-- `drcov::Error` (the `Io` payload is not needed by any claim). -/
inductive Error where
  | io
  | invalidFormat (m : FmtMsg)
  | unsupportedVersion (v : Nat)
  | invalidModuleTable (m : MtMsg)
  | invalidBbTable (m : BbMsg)
  | validationError (m : ValMsg)
deriving DecidableEq, Repr

/-! ## Validator and lookup layer -/

/-- The first `for` loop of `validate`: module at index `i` must carry
id `i`. -/
def checkIds : Nat → List ModuleEntry → Except Error Unit
  | _, [] => .ok ()
  | i, m :: r =>
    if m.id ≠ i then .error (.validationError (.nonSequentialModuleId m.id i))
    else checkIds (i + 1) r

/-- The second `for` loop of `validate`: every block's `module_id` must
be below the module count. -/
def checkBlocks (numModules : Nat) : List BasicBlock → Except Error Unit
  | [] => .ok ()
  | b :: r =>
    if b.module_id ≥ numModules then
      .error (.validationError (.invalidBlockModuleId b.module_id))
    else checkBlocks numModules r

/-- `CoverageData::validate`. -/
def CoverageData.validate (d : CoverageData) : Except Error Unit := do
  checkIds 0 d.modules
  checkBlocks d.modules.length d.basic_blocks

/-- `CoverageData::find_module`. -/
def CoverageData.find_module (d : CoverageData) (id : Nat) : Option ModuleEntry :=
  (d.modules.get? id).filter fun m => m.id = id

/-- `CoverageData::find_module_by_address`. -/
def CoverageData.find_module_by_address (d : CoverageData) (addr : Nat) : Option ModuleEntry :=
  d.modules.find? fun m => m.contains_address addr

/-! ## Decoder -/

/-- Case analysis on an `Option`, written as a named combinator so that
proofs can rewrite with it (`if let Some(x) = o { fs(x) } else { fn }`). -/
def optCase {a b : Type} (o : Option a) (fs : a → b) (fn : b) : b :=
  match o with
  | some x => fs x
  | none => fn

/-- `Option::or_else` as a named combinator. -/
def orOpt (a b : Option Nat) : Option Nat :=
  match a with
  | some v => some v
  | none => b

/-- `parse_header_line`: read one line, require it nonempty, strip one
trailing newline, strip the literal expected leading pattern. -/
def parse_header_line (pfx : Str) (s : Str) : Except Error (Str × Str) :=
  let p := readLine s
  if p.1.length = 0 then .error (.invalidFormat (.eofExpecting pfx))
  else
    optCase (dropPfx? pfx (stripNl p.1))
      (fun content => .ok (content, p.2))
      (.error (.invalidFormat (.invalidHeaderLine pfx)))

/-- The `HashMap` built by `columns.iter().zip(values.iter()).collect()`:
lookup by key, a later binding shadowing an earlier one. -/
def hmGet (k : Str) : List (Str × Str) → Option Str
  | [] => none
  | p :: r =>
    match hmGet k r with
    | some v => some v
    | none => if p.1 = k then some p.2 else none

/-- `parse_module_entry`: bounded comma split against the declared
columns, then field extraction by column name. -/
def parse_module_entry (line : Str) (columns : List Str) : Except Error ModuleEntry :=
  let values := (splitnComma columns.length line).map trim
  if values.length ≠ columns.length then
    .error (.invalidModuleTable (.columnCountMismatch line))
  else
    let map := columns.zip values
    optCase ((hmGet (strBytes "id") map).bind decU32?)
      (fun idv =>
      .ok
        { id := idv
          base :=
            (orOpt ((hmGet (strBytes "base") map).bind hexU64?)
              ((hmGet (strBytes "start") map).bind hexU64?)).getD 0
          end_ := ((hmGet (strBytes "end") map).bind hexU64?).getD 0
          entry := ((hmGet (strBytes "entry") map).bind hexU64?).getD 0
          path := (hmGet (strBytes "path") map).getD []
          containing_id := (hmGet (strBytes "containing_id") map).bind parseI32
          offset := (hmGet (strBytes "offset") map).bind hexU64?
          checksum := (hmGet (strBytes "checksum") map).bind hexU32?
          timestamp := (hmGet (strBytes "timestamp") map).bind hexU32? })
      (.error (.invalidModuleTable .missingOrInvalidId))

/-- The record loop of `parse_module_table`: read `count` lines, parse
each against the columns, and enforce `module.id == index` fail-fast. -/
def parseModulesLoop (columns : List Str) : Nat → Nat → Str → Except Error (List ModuleEntry × Str)
  | _, 0, s => .ok ([], s)
  | i, k + 1, s => do
    let p := readLine s
    let m ← parse_module_entry (trim p.1) columns
    if m.id ≠ i then
      throw (.invalidModuleTable (.nonSequentialModuleId i m.id))
    else
      let rest ← parseModulesLoop columns (i + 1) k p.2
      return (m :: rest.1, rest.2)

/-- The legacy implicit column layout. -/
def legacyColumns : List Str :=
  [strBytes "id", strBytes "base", strBytes "end", strBytes "entry", strBytes "path"]

/-- `parse_module_table`: header line (legacy or versioned), optional
`Columns:` line, then the record loop.  Returns the modules, the schema
version, and the unconsumed rest of the stream. -/
def parse_module_table (s : Str) : Except Error (List ModuleEntry × ModuleTableVersion × Str) := do
  let p := readLine s
  let content ← optCase (dropPfx? moduleTablePfx (trim p.1)) Except.ok
    (Except.error (.invalidModuleTable .missingOrMalformedHeader))
  let vc ← optCase (dropPfx? (strBytes "version ") content)
    (fun version_part =>
      let parts := splitComma version_part
      if parts.length ≠ 2 then
        Except.error (.invalidModuleTable .invalidVersionedHeaderFormat)
      else do
        let ver_num ← optCase (decU32? (trim (parts.getD 0 []))) Except.ok
          (Except.error (.invalidModuleTable .invalidVersionNumber))
        let count_str ← optCase (dropPfx? (strBytes "count ") (trim (parts.getD 1 []))) Except.ok
          (Except.error (.invalidModuleTable .missingCount))
        let count ← optCase (decUsize? count_str) Except.ok
          (Except.error (.invalidModuleTable .invalidCountValue))
        let ver ←
          (if ver_num = 2 then Except.ok ModuleTableVersion.V2
            else if ver_num = 3 then Except.ok ModuleTableVersion.V3
            else if ver_num = 4 then Except.ok ModuleTableVersion.V4
            else Except.error (.invalidModuleTable (.unsupportedModuleTableVersion ver_num)))
        Except.ok (ver, count))
    (optCase (decUsize? content)
      (fun c => Except.ok (ModuleTableVersion.Legacy, c))
      (Except.error (.invalidModuleTable .invalidLegacyCount)))
  let cr ←
    (if vc.1 ≠ ModuleTableVersion.Legacy then
      let q := readLine p.2
      optCase (dropPfx? columnsPfx (trim q.1))
        (fun columns_str => Except.ok ((splitComma columns_str).map trim, q.2))
        (Except.error (.invalidModuleTable .missingColumnsHeader))
    else
      Except.ok (legacyColumns, p.2))
  let r ← parseModulesLoop cr.1 0 vc.2 cr.2
  return (r.1, vc.1, r.2)

/-- Little-endian `u16` from two bytes. -/
def leU16 (b0 b1 : Nat) : Nat := b0 + 256 * b1

/-- Little-endian `u32` from four bytes. -/
def leU32 (b0 b1 b2 b3 : Nat) : Nat :=
  b0 + 256 * b1 + 65536 * b2 + 16777216 * b3

/-- The `chunks_exact(8)` decode loop of `parse_bb_table`. -/
def decodeBlocks : Nat → Str → List BasicBlock
  | 0, _ => []
  | k + 1, b0 :: b1 :: b2 :: b3 :: b4 :: b5 :: b6 :: b7 :: r =>
    { start := leU32 b0 b1 b2 b3, size := leU16 b4 b5, module_id := leU16 b6 b7 }
      :: decodeBlocks k r
  | _ + 1, _ => []

/-- `parse_bb_table`: optional-at-EOF header line, count token, then an
exact-length binary read (`read_exact`, failing with an I/O error when
fewer than `count * 8` bytes remain). -/
def parse_bb_table (s : Str) : Except Error (List BasicBlock) := do
  let p := readLine s
  if p.1.length = 0 then return []
  else do
    let content ← optCase (dropPfx? bbTablePfx (trim p.1)) Except.ok
      (Except.error (.invalidBbTable .missingOrMalformedHeader))
    let tok := firstWsToken content
    let tok := if tok = [] then [48] else tok
    let count ← optCase (decUsize? tok) Except.ok
      (Except.error (.invalidBbTable .invalidBlockCount))
    if count = 0 then return []
    else if p.2.length < count * 8 then throw .io
    else return decodeBlocks count (p.2.take (count * 8))

/-- `from_reader`: version line, version gate, flavor line, module
table, basic-block table, assembly, final validation. -/
def from_reader (s : Str) : Except Error CoverageData := do
  let hv ← parse_header_line versionPfx s
  let version ← optCase (decU32? hv.1) Except.ok
    (Except.error (.invalidFormat .malformedVersionNumber))
  if version ≠ SUPPORTED_FILE_VERSION then
    throw (.unsupportedVersion version)
  else do
    let hf ← parse_header_line flavorPfx hv.2
    let mt ← parse_module_table hf.2
    let blocks ← parse_bb_table mt.2.2
    let data : CoverageData :=
      { header := { version := version, flavor := hf.1 }
        module_version := mt.2.1
        modules := mt.1
        basic_blocks := blocks }
    data.validate
    return data

/-! ## Encoder -/

/-- Decidable equality of `Except` results, for concrete evaluation. -/
instance instDecEqExcept {e a : Type} [DecidableEq e] [DecidableEq a] : DecidableEq (Except e a)
  | .ok x, .ok y =>
    if h : x = y then .isTrue (by rw [h]) else .isFalse (by intro hc; cases hc; exact h rfl)
  | .error x, .error y =>
    if h : x = y then .isTrue (by rw [h]) else .isFalse (by intro hc; cases hc; exact h rfl)
  | .ok _, .error _ => .isFalse (by intro hc; cases hc)
  | .error _, .ok _ => .isFalse (by intro hc; cases hc)

/-- `u16::to_le_bytes`. -/
def u16le (n : Nat) : Str := [n % 256, n / 256 % 256]

/-- `u32::to_le_bytes`. -/
def u32le (n : Nat) : Str := [n % 256, n / 256 % 256, n / 65536 % 256, n / 16777216 % 256]

/-- One 8-byte basic-block record. -/
def encodeBlock (b : BasicBlock) : Str := u32le b.start ++ u16le b.size ++ u16le b.module_id

/-- The `Columns:` payload chosen by `to_writer` for each versioned
schema and set-wide windows-fields flag. -/
def columnsLine (v : ModuleTableVersion) (hasWin : Bool) : Str :=
  match v, hasWin with
  | .Legacy, _ => strBytes "id, base, end, entry, path"
  | .V2, true => strBytes "id, base, end, entry, checksum, timestamp, path"
  | .V2, false => strBytes "id, base, end, entry, path"
  | .V3, true => strBytes "id, containing_id, start, end, entry, checksum, timestamp, path"
  | .V3, false => strBytes "id, containing_id, start, end, entry, path"
  | .V4, true => strBytes "id, containing_id, start, end, entry, offset, checksum, timestamp, path"
  | .V4, false => strBytes "id, containing_id, start, end, entry, offset, path"

/-- The `containing_id` column text: the id in decimal, or the `-1`
sentinel when absent (`map_or_else` in the source). -/
def cidRepr (o : Option Int) : Str :=
  match o with
  | none => strBytes "-1"
  | some c => i32Repr c

/-- `Vec::join(", ")`. -/
def joinCommaSpace : List Str → Str
  | [] => []
  | [p] => p
  | p :: q :: r => p ++ [44, 32] ++ joinCommaSpace (q :: r)

/-- The `parts` vector built by `write_module_line`.  Note that the
windows-fields decision here is per module, from this module's own
`checksum`/`timestamp` presence (the `match` over `V2 | V3 | V4` in the
source is the test `version ≠ Legacy`). -/
def moduleLineParts (m : ModuleEntry) (version : ModuleTableVersion) : List Str :=
  let has_windows_fields := m.checksum.isSome || m.timestamp.isSome
  let parts := [decRepr m.id]
  let parts := parts ++
    (if version.toNat ≥ 3 then [cidRepr m.containing_id] else [])
  let parts := parts ++ [hexPad 16 m.base, hexPad 16 m.end_, hexPad 16 m.entry]
  let parts := parts ++
    (if version.toNat ≥ 4 then [[48, 120] ++ hexRepr (m.offset.getD 0)] else [])
  let use_windows_cols :=
    if version = ModuleTableVersion.Legacy then false else has_windows_fields
  let parts := parts ++
    (if use_windows_cols then [hexPad 8 (m.checksum.getD 0), hexPad 8 (m.timestamp.getD 0)]
     else [])
  parts ++ [m.path]

/-- `write_module_line`: the joined record line with its newline. -/
def write_module_line (m : ModuleEntry) (version : ModuleTableVersion) : Str :=
  joinCommaSpace (moduleLineParts m version) ++ [10]

/-- The set-wide windows-fields flag computed in `to_writer`. -/
def anyWin (d : CoverageData) : Bool :=
  d.modules.any fun m => m.checksum.isSome || m.timestamp.isSome

/-- `to_writer`, modelled as the pair (bytes written, optional error):
validation runs before any byte is produced; all model writes succeed. -/
def to_writer (d : CoverageData) : Str × Option Error :=
  match d.validate with
  | .error e => ([], some e)
  | .ok _ =>
    let out := versionPfx ++ decRepr d.header.version ++ [10]
    let out := out ++ flavorPfx ++ d.header.flavor ++ [10]
    let out := out ++
      (if d.module_version = ModuleTableVersion.Legacy then
        moduleTablePfx ++ decRepr d.modules.length ++ [10]
      else
        moduleTablePfx ++ strBytes "version " ++ decRepr d.module_version.toNat ++
          strBytes ", count " ++ decRepr d.modules.length ++ [10] ++
          columnsPfx ++ columnsLine d.module_version (anyWin d) ++ [10])
    let out := out ++ (d.modules.map fun m => write_module_line m d.module_version).flatten
    let out := out ++ bbTablePfx ++ [32] ++ decRepr d.basic_blocks.length ++ strBytes " bbs" ++ [10]
    let out := out ++
      (if d.basic_blocks.isEmpty then [] else (d.basic_blocks.map encodeBlock).flatten)
    (out, none)

/-! ## Round-trip normalization and well-formedness

`normalizeEntry` describes, following the spec's round-trip property,
which fields survive an encode/decode cycle under schema version `v`:
fields unsupported by `v` become absent, and the encoder's defaults
(`-1` for an absent `containing_id` under V3+, `0` for an absent
`offset` under V4, `0` for an absent checksum/timestamp when the
set-wide windows flag is on) become materialized values. -/

/-- The image of one module entry after encoding under `v` (with
set-wide windows flag `setWin`) and decoding again. -/
def normalizeEntry (v : ModuleTableVersion) (setWin : Bool) (m : ModuleEntry) : ModuleEntry :=
  { m with
    containing_id := if v.toNat ≥ 3 then some (m.containing_id.getD (-1)) else none
    offset := if v.toNat ≥ 4 then some (m.offset.getD 0) else none
    checksum := if v ≠ ModuleTableVersion.Legacy ∧ setWin then some (m.checksum.getD 0) else none
    timestamp := if v ≠ ModuleTableVersion.Legacy ∧ setWin then some (m.timestamp.getD 0) else none }

/-- The image of a whole aggregate after an encode/decode cycle. -/
def normalizeData (d : CoverageData) : CoverageData :=
  { d with modules := d.modules.map (normalizeEntry d.module_version (anyWin d)) }

/-- The numeric-range side conditions guaranteed by the Rust field types
(`u32`/`u64`/`i32`/`u16`) of `ModuleEntry`. -/
def EntryWF (m : ModuleEntry) : Prop :=
  m.id < 2 ^ 32 ∧ m.base < 2 ^ 64 ∧ m.end_ < 2 ^ 64 ∧ m.entry < 2 ^ 64 ∧
    (∀ x ∈ m.offset, x < 2 ^ 64) ∧ (∀ x ∈ m.checksum, x < 2 ^ 32) ∧
    (∀ x ∈ m.timestamp, x < 2 ^ 32) ∧
    (∀ x ∈ m.containing_id, -(2 ^ 31) ≤ x ∧ x < 2 ^ 31)

/-- The numeric-range side conditions guaranteed by the Rust field types
(`u32`/`u16`) of `BasicBlock`. -/
def BlockWF (b : BasicBlock) : Prop :=
  b.start < 2 ^ 32 ∧ b.size < 2 ^ 16 ∧ b.module_id < 2 ^ 16

/-- Range conditions guaranteed by the Rust types of a whole aggregate
(64-bit `usize` lengths included). -/
def DataWF (d : CoverageData) : Prop :=
  (∀ m ∈ d.modules, EntryWF m) ∧ (∀ b ∈ d.basic_blocks, BlockWF b) ∧
    d.modules.length < 2 ^ 64 ∧ d.basic_blocks.length < 2 ^ 64

/-- A path byte string survives the writer/parser pipeline verbatim:
it contains no newline and is stable under surrounding-whitespace
trimming. -/
def PathWF (p : Str) : Prop := 10 ∉ p ∧ trim p = p

instance (p : Str) : Decidable (PathWF p) := by unfold PathWF; infer_instance

instance (m : ModuleEntry) : Decidable (EntryWF m) := by unfold EntryWF; infer_instance

instance (b : BasicBlock) : Decidable (BlockWF b) := by unfold BlockWF; infer_instance

instance (d : CoverageData) : Decidable (DataWF d) := by unfold DataWF; infer_instance

/-- A small valid V3 aggregate whose module has no `containing_id`;
used to exhibit the round-trip normalization concretely. -/
def c1x : CoverageData :=
  { header := { version := 2, flavor := strBytes "t" }
    module_version := .V3
    modules := [{ id := 0, base := 0x400000, end_ := 0x450000, entry := 0x401000,
                  path := strBytes "/bin/test" }]
    basic_blocks := [{ start := 0x1000, size := 32, module_id := 0 }] }

/-- A module with a checksum present. -/
def c2a : ModuleEntry :=
  { id := 0, base := 0x400000, end_ := 0x450000, entry := 0, path := strBytes "/a",
    checksum := some 1 }

/-- A module with neither checksum nor timestamp. -/
def c2b : ModuleEntry :=
  { id := 1, base := 0x500000, end_ := 0x550000, entry := 0, path := strBytes "/b" }

/-- A valid V2 aggregate with mixed windows-field presence across its
two modules. -/
def c2x : CoverageData :=
  { header := { version := 2, flavor := strBytes "t" }
    module_version := .V2
    modules := [c2a, c2b]
    basic_blocks := [] }

/-- A minimal valid legacy aggregate. -/
def c7x : CoverageData :=
  { header := { version := 2, flavor := strBytes "drcov" }
    module_version := .Legacy
    modules := []
    basic_blocks := [] }

/-- The ten column names `parse_module_entry` ever looks up. -/
def keyNames : List Str :=
  [strBytes "id", strBytes "base", strBytes "start", strBytes "end", strBytes "entry",
   strBytes "path", strBytes "containing_id", strBytes "offset", strBytes "checksum",
   strBytes "timestamp"]

/-- First of two overlapping modules. -/
def c6m0 : ModuleEntry :=
  { id := 0, base := 0x400000, end_ := 0x500000, entry := 0, path := strBytes "/first" }

/-- Second of two overlapping modules. -/
def c6m1 : ModuleEntry :=
  { id := 1, base := 0x400000, end_ := 0x600000, entry := 0, path := strBytes "/second" }

/-- Two modules with overlapping half-open ranges, both containing
0x450000. -/
def c6x : CoverageData :=
  { header := { version := 2, flavor := strBytes "t" }
    module_version := .Legacy
    modules := [c6m0, c6m1]
    basic_blocks := [] }

/-- An aggregate whose second module has the non-sequential id 7. -/
def c3x : CoverageData :=
  { header := { version := 2, flavor := strBytes "t" }
    module_version := .Legacy
    modules := [{ id := 0, base := 0, end_ := 0, entry := 0, path := strBytes "/x" },
                { id := 7, base := 0, end_ := 0, entry := 0, path := strBytes "/y" }]
    basic_blocks := [] }

/-- An aggregate whose single module has the non-sequential id 5. -/
def c9x : CoverageData :=
  { header := { version := 2, flavor := strBytes "t" }
    module_version := .Legacy
    modules := [{ id := 5, base := 0, end_ := 0, entry := 0, path := strBytes "/x" }]
    basic_blocks := [] }

/-! ## Helper lemmas: combinators, line reading, prefix stripping, trimming -/

theorem optCase_some {a b : Type} (x : a) (fs : a → b) (fn : b) :
    optCase (some x) fs fn = fs x := rfl

theorem optCase_none {a b : Type} (fs : a → b) (fn : b) :
    optCase (none : Option a) fs fn = fn := rfl

theorem orOpt_some (v : Nat) (b : Option Nat) : orOpt (some v) b = some v := rfl

theorem orOpt_none (b : Option Nat) : orOpt none b = b := rfl

theorem cidRepr_none : cidRepr none = strBytes "-1" := rfl

theorem cidRepr_some (c : Int) : cidRepr (some c) = i32Repr c := rfl

theorem readLine_append {a : Str} (b : Str) (h : 10 ∉ a) :
    readLine (a ++ 10 :: b) = (a ++ [10], b) := by
  induction a with
  | nil => simp [readLine]
  | cons x t ih =>
    have hx : x ≠ 10 := fun hc => h (by simp [hc])
    have ht : 10 ∉ t := fun hc => h (List.mem_cons_of_mem _ hc)
    simp [readLine, hx, ih ht]

theorem isPrefixOf_append (p r : Str) : p.isPrefixOf (p ++ r) = true := by
  induction p with
  | nil => simp [List.isPrefixOf]
  | cons a t ih => simp [List.isPrefixOf, ih]

theorem dropPfx?_append (p r : Str) : dropPfx? p (p ++ r) = some r := by
  simp [dropPfx?, isPrefixOf_append]

theorem stripNl_concat (a : Str) : stripNl (a ++ [10]) = a := by
  simp [stripNl]

theorem parse_header_line_append (pfx c rest : Str) (hp : 10 ∉ pfx) (hc : 10 ∉ c) :
    parse_header_line pfx (pfx ++ c ++ 10 :: rest) = .ok (c, rest) := by
  have h10 : 10 ∉ pfx ++ c := by
    intro hm
    rcases List.mem_append.mp hm with h | h
    · exact hp h
    · exact hc h
  have hr := @readLine_append (pfx ++ c) rest h10
  simp only [parse_header_line]
  rw [hr]
  have h1 : stripNl (pfx ++ c ++ [10]) = pfx ++ c := stripNl_concat (pfx ++ c)
  rw [if_neg (by simp), h1, dropPfx?_append, optCase_some]

theorem dropWhile_eq_self_of_all {p : Nat → Bool} {l : Str}
    (h : ∀ x ∈ l, p x = false) : l.dropWhile p = l := by
  cases l with
  | nil => rfl
  | cons a t => simp [List.dropWhile, h a (by simp)]

theorem trimStart_eq_self {l : Str} (h : ∀ x ∈ l, isWsByte x = false) :
    trimStart l = l := dropWhile_eq_self_of_all h

theorem trimEnd_eq_self {l : Str} (h : ∀ x ∈ l, isWsByte x = false) :
    trimEnd l = l := by
  unfold trimEnd
  rw [dropWhile_eq_self_of_all (by intro x hx; exact h x (List.mem_reverse.mp hx))]
  simp

theorem trim_eq_self {l : Str} (h : ∀ x ∈ l, isWsByte x = false) :
    trim l = l := by
  unfold trim
  rw [trimStart_eq_self h, trimEnd_eq_self h]

theorem trimStart_cons_ws {b : Nat} (l : Str) (h : isWsByte b = true) :
    trimStart (b :: l) = trimStart l := by
  simp [trimStart, List.dropWhile, h]

theorem trim_cons_ws {b : Nat} (l : Str) (h : isWsByte b = true) :
    trim (b :: l) = trim l := by
  unfold trim
  rw [trimStart_cons_ws l h]

theorem trimEnd_concat_ws {b : Nat} (l : Str) (h : isWsByte b = true) :
    trimEnd (l ++ [b]) = trimEnd l := by
  simp [trimEnd, List.dropWhile, h]

theorem trimStart_cons_not_ws {b : Nat} (l : Str) (h : isWsByte b = false) :
    trimStart (b :: l) = b :: l := by
  simp [trimStart, List.dropWhile, h]

theorem trimStart_append_of_head {a : Str} (l : Str)
    (ha : a ≠ []) (h : ∀ x ∈ a, isWsByte x = false) :
    trimStart (a ++ l) = a ++ l := by
  cases a with
  | nil => exact absurd rfl ha
  | cons x t => exact trimStart_cons_not_ws _ (h x (by simp))

theorem trimEnd_concat_not_ws {b : Nat} (l : Str) (h : isWsByte b = false) :
    trimEnd (l ++ [b]) = l ++ [b] := by
  simp [trimEnd, List.dropWhile, h]

/-- Trimming a line of the form `head-part ++ middle ++ [last]` where the
head part opens with a non-whitespace byte and the last byte is
non-whitespace leaves the line unchanged. -/
theorem trim_line_eq_self {a : Str} {l : Str} {b : Nat}
    (ha : a ≠ []) (hh : ∀ x ∈ a, isWsByte x = false) (hb : isWsByte b = false) :
    trim (a ++ l ++ [b]) = a ++ l ++ [b] := by
  unfold trim
  rw [List.append_assoc, trimStart_append_of_head _ ha hh, ← List.append_assoc,
    trimEnd_concat_not_ws _ hb]

/-! ## Helper lemmas: comma splitting and whitespace tokens -/

theorem splitnGo_zero (l : Str) : ∀ acc, splitnGo 0 acc l = [acc.reverse ++ l] := by
  induction l with
  | nil => intro acc; simp [splitnGo]
  | cons b r ih =>
    intro acc
    by_cases hb : b = 44
    · subst hb; simp [splitnGo, ih]
    · simp [splitnGo, hb, ih]

theorem splitnGo_no_comma {l : Str} (h : 44 ∉ l) (k : Nat) :
    ∀ acc, splitnGo k acc l = [acc.reverse ++ l] := by
  induction l with
  | nil => intro acc; simp [splitnGo]
  | cons b r ih =>
    intro acc
    have hb : b ≠ 44 := fun hc => h (by simp [hc])
    have hr : 44 ∉ r := fun hc => h (List.mem_cons_of_mem _ hc)
    simp [splitnGo, hb, ih hr]

theorem splitnGo_comma {a : Str} (h : 44 ∉ a) (k : Nat) (rest : Str) :
    ∀ acc, splitnGo (k + 1) acc (a ++ 44 :: rest) = (acc.reverse ++ a) :: splitnGo k [] rest := by
  induction a with
  | nil => intro acc; simp [splitnGo]
  | cons x t ih =>
    intro acc
    have hx : x ≠ 44 := fun hc => h (by simp [hc])
    have ht : 44 ∉ t := fun hc => h (List.mem_cons_of_mem _ hc)
    simp [splitnGo, hx, ih ht]

theorem takeWhile_not_ws_append {a : Str} (rest : Str) {b : Nat}
    (ha : ∀ x ∈ a, isWsByte x = false) (hb : isWsByte b = true) :
    (a ++ b :: rest).takeWhile (fun x => !isWsByte x) = a := by
  induction a with
  | nil => simp [List.takeWhile, hb]
  | cons x t ih =>
    simp only [List.cons_append, List.takeWhile]
    rw [ha x (by simp)]
    simp [ih fun y hy => ha y (List.mem_cons_of_mem _ hy)]

theorem firstWsToken_spec {a : Str} (rest : Str) {b : Nat}
    (hne : a ≠ []) (ha : ∀ x ∈ a, isWsByte x = false) (hb : isWsByte b = true) :
    firstWsToken (a ++ b :: rest) = a := by
  unfold firstWsToken
  rw [show a ++ b :: rest = a ++ b :: rest from rfl]
  cases a with
  | nil => exact absurd rfl hne
  | cons x t =>
    rw [List.cons_append, List.dropWhile]
    rw [ha x (by simp)]
    exact takeWhile_not_ws_append rest ha hb

/-! ## Helper lemmas: numeric rendering/parsing round-trips -/

theorem decDigit_natToDigitByte : ∀ d, d < 10 → decDigit? (natToDigitByte d) = some d := by
  decide

theorem hexDigit_natToDigitByte : ∀ d, d < 16 → hexDigit? (natToDigitByte d) = some d := by
  decide

theorem natToDigitByte_bounds : ∀ d, d < 16 →
    48 ≤ natToDigitByte d ∧ natToDigitByte d ≤ 102 := by
  decide

theorem toBaseAux_eq_nil {base : Nat} :
    ∀ fuel n acc, toBaseAux base fuel n acc = [] → acc = [] := by
  intro fuel
  induction fuel with
  | zero => intro n acc h; exact h
  | succ f ih =>
    intro n acc h
    by_cases hn : n = 0
    · simpa [toBaseAux, hn] using h
    · have := ih (n / base) (natToDigitByte (n % base) :: acc) (by simpa [toBaseAux, hn] using h)
      cases this

theorem natToBase_ne_nil (base n : Nat) : natToBase base n ≠ [] := by
  unfold natToBase
  by_cases hn : n = 0
  · simp [hn]
  · simp only [hn, if_false]
    intro h
    cases n with
    | zero => exact hn rfl
    | succ m =>
      by_cases hq : Nat.succ m = 0
      · cases hq
      · have h2 : toBaseAux base m (Nat.succ m / base) (natToDigitByte (Nat.succ m % base) :: []) = [] := by
          simpa [toBaseAux, hq] using h
        have := toBaseAux_eq_nil _ _ _ h2
        cases this

theorem toBaseAux_mem {base : Nat} (hb : 0 < base) :
    ∀ fuel n acc x, x ∈ toBaseAux base fuel n acc →
      (∃ d, d < base ∧ x = natToDigitByte d) ∨ x ∈ acc := by
  intro fuel
  induction fuel with
  | zero => intro n acc x h; exact Or.inr h
  | succ f ih =>
    intro n acc x h
    by_cases hn : n = 0
    · exact Or.inr (by simpa [toBaseAux, hn] using h)
    · have h2 : x ∈ toBaseAux base f (n / base) (natToDigitByte (n % base) :: acc) := by
        simpa [toBaseAux, hn] using h
      rcases ih (n / base) _ x h2 with hd | hacc
      · exact Or.inl hd
      · rcases List.mem_cons.mp hacc with hx | hx
        · exact Or.inl ⟨n % base, Nat.mod_lt n hb, hx⟩
        · exact Or.inr hx

theorem natToBase_mem {base : Nat} (hb : 2 ≤ base) (hb16 : base ≤ 16) {n x : Nat}
    (h : x ∈ natToBase base n) : 48 ≤ x ∧ x ≤ 102 := by
  unfold natToBase at h
  by_cases hn : n = 0
  · simp [hn] at h
    subst h; exact ⟨le_refl 48, by norm_num⟩
  · simp only [hn, if_false] at h
    rcases toBaseAux_mem (by omega) n n [] x h with ⟨d, hd, hx⟩ | hx
    · subst hx; exact natToDigitByte_bounds d (by omega)
    · cases hx

theorem natToBase_not_ws {base : Nat} (hb : 2 ≤ base) (hb16 : base ≤ 16) {n x : Nat}
    (h : x ∈ natToBase base n) : isWsByte x = false := by
  have h2 := natToBase_mem hb hb16 h
  simp only [isWsByte, Bool.or_eq_false_iff, decide_eq_false_iff_not]
  omega

theorem parseDigitsAux_append (digit? : Nat → Option Nat) (base : Nat) :
    ∀ (l1 l2 : Str) (acc : Nat),
      parseDigitsAux digit? base (l1 ++ l2) acc =
        (parseDigitsAux digit? base l1 acc).bind fun v => parseDigitsAux digit? base l2 v := by
  intro l1
  induction l1 with
  | nil => intro l2 acc; simp [parseDigitsAux]
  | cons b r ih =>
    intro l2 acc
    simp only [List.cons_append, parseDigitsAux]
    cases digit? b with
    | none => simp
    | some d => simp [ih]

theorem parseDigitsAux_toBaseAux {digit? : Nat → Option Nat} {base : Nat}
    (hd : ∀ d, d < base → digit? (natToDigitByte d) = some d) (hb : 2 ≤ base) :
    ∀ fuel n acc accv, n ≤ fuel → n ≠ 0 →
      ∃ e, parseDigitsAux digit? base (toBaseAux base fuel n acc) accv =
        parseDigitsAux digit? base acc (accv * base ^ e + n) := by
  intro fuel
  induction fuel with
  | zero => intro n acc accv hle hn; omega
  | succ f ih =>
    intro n acc accv hle hn
    have hnb : n % base < base := Nat.mod_lt n (by omega)
    by_cases hz : n / base = 0
    · have hlt : n < base := (Nat.div_eq_zero_iff (by omega)).mp hz
      refine ⟨1, ?_⟩
      have : toBaseAux base (f + 1) n acc =
          toBaseAux base f 0 (natToDigitByte (n % base) :: acc) := by
        simp [toBaseAux, hn, hz]
      rw [this]
      have h0 : toBaseAux base f 0 (natToDigitByte (n % base) :: acc) =
          natToDigitByte (n % base) :: acc := by
        cases f <;> simp [toBaseAux]
      rw [h0]
      simp only [parseDigitsAux, hd (n % base) hnb]
      rw [Nat.mod_eq_of_lt hlt]
      ring_nf
    · have hfl : n / base ≤ f := by
        have h1 : n / base < n := Nat.div_lt_self (by omega) (by omega)
        omega
      obtain ⟨e, he⟩ := ih (n / base) (natToDigitByte (n % base) :: acc) accv hfl hz
      refine ⟨e + 1, ?_⟩
      have : toBaseAux base (f + 1) n acc =
          toBaseAux base f (n / base) (natToDigitByte (n % base) :: acc) := by
        simp [toBaseAux, hn]
      rw [this, he]
      simp only [parseDigitsAux, hd (n % base) hnb]
      congr 1
      calc (accv * base ^ e + n / base) * base + n % base
          = accv * (base ^ e * base) + (base * (n / base) + n % base) := by ring
        _ = accv * base ^ (e + 1) + n := by rw [← pow_succ, Nat.div_add_mod]

theorem parseDigitsAux_natToBase {digit? : Nat → Option Nat} {base : Nat}
    (hd : ∀ d, d < base → digit? (natToDigitByte d) = some d) (hb : 2 ≤ base) (n : Nat) :
    parseDigitsAux digit? base (natToBase base n) 0 = some n := by
  unfold natToBase
  by_cases hn : n = 0
  · have h48 : natToDigitByte 0 = 48 := by decide
    simp only [hn, if_true]
    have := hd 0 (by omega)
    rw [h48] at this
    simp [parseDigitsAux, this]
  · simp only [hn, if_false]
    obtain ⟨e, he⟩ := parseDigitsAux_toBaseAux hd hb n n [] 0 (le_refl n) hn
    rw [he]
    simp [parseDigitsAux]

theorem parseUnsigned_natToBase {digit? : Nat → Option Nat} {base : Nat}
    (hd : ∀ d, d < base → digit? (natToDigitByte d) = some d)
    (hb : 2 ≤ base) (hb16 : base ≤ 16) {bound n : Nat} (hn : n < bound) :
    parseUnsigned digit? base bound (natToBase base n) = some n := by
  obtain ⟨x, xs, hx⟩ := List.exists_cons_of_ne_nil (natToBase_ne_nil base n)
  have hxm : x ∈ natToBase base n := by rw [hx]; simp
  have hxb := natToBase_mem hb hb16 hxm
  unfold parseUnsigned
  rw [hx]
  have hplus : stripPlus (x :: xs) = x :: xs := by
    simp only [stripPlus]
    rw [if_neg (by omega)]
  rw [hplus, if_neg (by simp), ← hx, parseDigitsAux_natToBase hd hb]
  simp [hn]

theorem decU32_decRepr {n : Nat} (hn : n < 2 ^ 32) : decU32? (decRepr n) = some n :=
  parseUnsigned_natToBase decDigit_natToDigitByte (by norm_num) (by norm_num) hn

theorem decUsize_decRepr {n : Nat} (hn : n < 2 ^ 64) : decUsize? (decRepr n) = some n :=
  parseUnsigned_natToBase decDigit_natToDigitByte (by norm_num) (by norm_num) hn

theorem strip0x_of_le102 {l : Str} (h : ∀ x ∈ l, x ≤ 102) : strip0x l = l := by
  match l with
  | [] => rfl
  | [a] => rfl
  | a :: b :: r =>
    have hb : b ≤ 102 := h b (by simp)
    simp only [strip0x]
    rw [if_neg (by omega)]

theorem parseDigitsAux_replicate48 {digit? : Nat → Option Nat} {base : Nat}
    (h48 : digit? 48 = some 0) (_hb : 0 < base) (k : Nat) (rest : Str) :
    parseDigitsAux digit? base (List.replicate k 48 ++ rest) 0 =
      parseDigitsAux digit? base rest 0 := by
  induction k with
  | zero => simp
  | succ m ih => simpa [parseDigitsAux, h48] using ih

theorem hexParse_0x_pad {bound k n : Nat} (hn : n < bound) :
    parseUnsigned hexDigit? 16 bound
      (strip0x ([48, 120] ++ List.replicate k 48 ++ hexRepr n)) = some n := by
  have hd16 := hexDigit_natToDigitByte
  have hs1 : ([48, 120] : Str) ++ List.replicate k 48 ++ hexRepr n =
      48 :: 120 :: (List.replicate k 48 ++ hexRepr n) := by simp
  rw [hs1]
  have hs2 : strip0x (48 :: 120 :: (List.replicate k 48 ++ hexRepr n)) =
      strip0x (List.replicate k 48 ++ hexRepr n) := by
    simp [strip0x]
  rw [hs2]
  have hmem : ∀ x ∈ List.replicate k 48 ++ hexRepr n, x ≤ 102 := by
    intro x hx
    rcases List.mem_append.mp hx with hz | hh
    · rw [List.eq_of_mem_replicate hz]; norm_num
    · exact (natToBase_mem (by norm_num) (by norm_num) hh).2
  have hmem48 : ∀ x ∈ List.replicate k 48 ++ hexRepr n, 48 ≤ x := by
    intro x hx
    rcases List.mem_append.mp hx with hz | hh
    · rw [List.eq_of_mem_replicate hz]
    · exact (natToBase_mem (by norm_num) (by norm_num) hh).1
  rw [strip0x_of_le102 hmem]
  have hne : List.replicate k 48 ++ hexRepr n ≠ [] := by
    intro hc
    exact natToBase_ne_nil 16 n (List.append_eq_nil.mp hc).2
  obtain ⟨y, ys, hy⟩ := List.exists_cons_of_ne_nil hne
  have hy48 : 48 ≤ y := hmem48 y (by rw [hy]; simp)
  unfold parseUnsigned
  rw [hy]
  have hplus : stripPlus (y :: ys) = y :: ys := by
    simp only [stripPlus]
    rw [if_neg (by omega)]
  rw [hplus, if_neg (by simp), ← hy,
    parseDigitsAux_replicate48 (by decide) (by norm_num) k (hexRepr n),
    show hexRepr n = natToBase 16 n from rfl,
    parseDigitsAux_natToBase hd16 (by norm_num)]
  simp [hn]

theorem hexU64_hexPad {w n : Nat} (hn : n < 2 ^ 64) : hexU64? (hexPad w n) = some n := by
  unfold hexU64? hexPad
  exact hexParse_0x_pad hn

theorem hexU32_hexPad {w n : Nat} (hn : n < 2 ^ 32) : hexU32? (hexPad w n) = some n := by
  unfold hexU32? hexPad
  exact hexParse_0x_pad hn

theorem hexU64_0x_hexRepr {n : Nat} (hn : n < 2 ^ 64) :
    hexU64? ([48, 120] ++ hexRepr n) = some n := by
  have h := @hexParse_0x_pad _ 0 _ hn
  simpa [hexU64?] using h

theorem hexU64_0x_hexRepr_cons {n : Nat} (hn : n < 2 ^ 64) :
    hexU64? (48 :: 120 :: hexRepr n) = some n := hexU64_0x_hexRepr hn

theorem decDigitsVal_decRepr (n : Nat) : decDigitsVal? (decRepr n) = some n := by
  unfold decDigitsVal?
  have hne : decRepr n ≠ [] := natToBase_ne_nil 10 n
  rw [if_neg hne]
  exact parseDigitsAux_natToBase decDigit_natToDigitByte (by norm_num) n

theorem parseI32_cons (x : Nat) (xs : Str) :
    parseI32 (x :: xs) =
      if x = 43 then
        (decDigitsVal? xs).bind fun v => if v < 2 ^ 31 then some (Int.ofNat v) else none
      else if x = 45 then
        (decDigitsVal? xs).bind fun v => if v ≤ 2 ^ 31 then some (-(Int.ofNat v)) else none
      else
        (decDigitsVal? (x :: xs)).bind fun v =>
          if v < 2 ^ 31 then some (Int.ofNat v) else none := rfl

theorem parseI32_i32Repr {c : Int} (h1 : -(2 ^ 31) ≤ c) (h2 : c < 2 ^ 31) :
    parseI32 (i32Repr c) = some c := by
  by_cases hc : c < 0
  · have hrep : i32Repr c = 45 :: decRepr c.natAbs := by simp [i32Repr, hc]
    rw [hrep, parseI32_cons]
    have hle : c.natAbs ≤ 2 ^ 31 := by omega
    rw [if_neg (by norm_num), if_pos rfl, decDigitsVal_decRepr]
    simp only [Option.some_bind]
    rw [if_pos hle]
    have hval : -(Int.ofNat c.natAbs) = c := by
      simp only [Int.ofNat_eq_coe]
      omega
    rw [hval]
  · push_neg at hc
    have habs : i32Repr c = decRepr c.toNat := by simp [i32Repr, not_lt.mpr hc]
    obtain ⟨x, xs, hx⟩ := List.exists_cons_of_ne_nil (natToBase_ne_nil 10 c.toNat)
    have hx2 : decRepr c.toNat = x :: xs := hx
    have hxm : x ∈ natToBase 10 c.toNat := by rw [hx]; simp
    have hxb := natToBase_mem (by norm_num) (by norm_num) hxm
    rw [habs, hx2, parseI32_cons]
    have hlt : c.toNat < 2 ^ 31 := by omega
    rw [if_neg (by omega), if_neg (by omega), ← hx2, decDigitsVal_decRepr]
    simp only [Option.some_bind]
    rw [if_pos hlt]
    have hval : Int.ofNat c.toNat = c := by
      simp only [Int.ofNat_eq_coe]
      omega
    rw [hval]

/-! ## Helper lemmas: record lines (join, split, trim) -/

/-- Parts of a module record line other than the path: nonempty strings
of bytes in the printable band `45..120` (digits, hex digits, `0x`, a
minus sign), in particular free of commas, newlines and whitespace. -/
def NumPart (p : Str) : Prop := p ≠ [] ∧ ∀ x ∈ p, 45 ≤ x ∧ x ≤ 120

theorem not_ws_of_ge45 {x : Nat} (h : 45 ≤ x) : isWsByte x = false := by
  simp only [isWsByte, Bool.or_eq_false_iff, decide_eq_false_iff_not]
  omega

theorem numPart_not_comma {p : Str} (h : NumPart p) : 44 ∉ p := by
  intro hm
  have := h.2 44 hm
  omega

theorem numPart_trim {p : Str} (h : NumPart p) : trim p = p :=
  trim_eq_self fun x hx => not_ws_of_ge45 (h.2 x hx).1

theorem numPart_decRepr (n : Nat) : NumPart (decRepr n) := by
  refine ⟨natToBase_ne_nil 10 n, fun x hx => ?_⟩
  have := natToBase_mem (by norm_num) (by norm_num) hx
  omega

theorem numPart_hexPad (w n : Nat) : NumPart (hexPad w n) := by
  constructor
  · simp [hexPad]
  · intro x hx
    unfold hexPad at hx
    rcases List.mem_append.mp hx with h1 | h2
    · rcases List.mem_append.mp h1 with ha | hb
      · have : x = 48 ∨ x = 120 := by simpa using ha
        omega
      · rw [List.eq_of_mem_replicate hb]; omega
    · have := natToBase_mem (show (2:Nat) ≤ 16 by norm_num) (by norm_num) h2
      omega

theorem numPart_0x_hexRepr (n : Nat) : NumPart ([48, 120] ++ hexRepr n) := by
  constructor
  · simp
  · intro x hx
    rcases List.mem_append.mp hx with h1 | h2
    · have : x = 48 ∨ x = 120 := by simpa using h1
      omega
    · have := natToBase_mem (show (2:Nat) ≤ 16 by norm_num) (by norm_num) h2
      omega

theorem numPart_i32Repr (c : Int) : NumPart (i32Repr c) := by
  unfold i32Repr
  by_cases hc : c < 0
  · simp only [hc, if_true]
    constructor
    · simp
    · intro x hx
      rcases List.mem_cons.mp hx with h | h
      · omega
      · have := natToBase_mem (show (2:Nat) ≤ 10 by norm_num) (by norm_num) h
        omega
  · simp only [hc, if_false]
    exact numPart_decRepr _

theorem numPart_neg1 : NumPart (strBytes "-1") := by
  constructor
  · decide
  · decide

theorem joinCommaSpace_cons {l : List Str} (p : Str) (h : l ≠ []) :
    joinCommaSpace (p :: l) = p ++ [44, 32] ++ joinCommaSpace l := by
  cases l with
  | nil => exact absurd rfl h
  | cons q r => rfl

theorem joinCommaSpace_snoc (path : Str) :
    ∀ (ps : List Str), ps ≠ [] →
      joinCommaSpace (ps ++ [path]) = joinCommaSpace ps ++ [44, 32] ++ path := by
  intro ps
  induction ps with
  | nil => intro h; exact absurd rfl h
  | cons p ps' ih =>
    intro _
    cases ps' with
    | nil => rfl
    | cons q r =>
      rw [List.cons_append, joinCommaSpace_cons p (by simp),
        joinCommaSpace_cons p (by simp), ih (by simp)]
      simp [List.append_assoc]

theorem mem_joinCommaSpace :
    ∀ {l : List Str} {x : Nat},
      x ∈ joinCommaSpace l → (∃ p ∈ l, x ∈ p) ∨ x = 44 ∨ x = 32 := by
  intro l
  induction l with
  | nil => intro x h; cases h
  | cons p r ih =>
    intro x h
    cases r with
    | nil =>
      exact Or.inl ⟨p, by simp, h⟩
    | cons q t =>
      rw [joinCommaSpace_cons p (by simp)] at h
      rcases List.mem_append.mp h with h1 | h2
      · rcases List.mem_append.mp h1 with ha | hb
        · exact Or.inl ⟨p, by simp, ha⟩
        · have : x = 44 ∨ x = 32 := by simpa using hb
          exact Or.inr this
      · rcases ih h2 with ⟨s, hs, hx⟩ | h3
        · exact Or.inl ⟨s, List.mem_cons_of_mem _ hs, hx⟩
        · exact Or.inr h3

theorem splitnGo_join (path : Str) :
    ∀ (ps : List Str) (acc : Str), (∀ p ∈ ps, 44 ∉ p) →
      splitnGo ps.length acc (joinCommaSpace (ps ++ [path])) =
        (match ps with
          | [] => [acc.reverse ++ path]
          | p :: ps' => (acc.reverse ++ p) :: (ps'.map fun q => 32 :: q) ++ [32 :: path]) := by
  intro ps
  induction ps with
  | nil => intro acc _; simpa [joinCommaSpace] using splitnGo_zero path acc
  | cons p ps' ih =>
    intro acc hps
    have hp : 44 ∉ p := hps p (by simp)
    have hrest : ∀ q ∈ ps', 44 ∉ q := fun q hq => hps q (by simp [hq])
    have hj : joinCommaSpace ((p :: ps') ++ [path]) =
        p ++ 44 :: (32 :: joinCommaSpace (ps' ++ [path])) := by
      rw [List.cons_append, joinCommaSpace_cons p (by simp)]
      simp
    rw [hj]
    simp only [List.length_cons]
    rw [splitnGo_comma hp ps'.length _ acc]
    have hstep : splitnGo ps'.length [] (32 :: joinCommaSpace (ps' ++ [path])) =
        splitnGo ps'.length [32] (joinCommaSpace (ps' ++ [path])) := by
      simp [splitnGo]
    rw [hstep, ih [32] hrest]
    cases ps' with
    | nil => simp
    | cons q t => simp

theorem splitnGo_join44 :
    ∀ (ps : List Str) (acc : Str), (∀ p ∈ ps, 44 ∉ p) → ps ≠ [] →
      splitnGo ps.length acc (joinCommaSpace ps ++ [44]) =
        (match ps with
          | [] => [acc.reverse]
          | p :: ps' => (acc.reverse ++ p) :: (ps'.map fun q => 32 :: q) ++ [[]]) := by
  intro ps
  induction ps with
  | nil => intro acc _ h; exact absurd rfl h
  | cons p ps' ih =>
    intro acc hps _
    have hp : 44 ∉ p := hps p (by simp)
    have hrest : ∀ q ∈ ps', 44 ∉ q := fun q hq => hps q (by simp [hq])
    cases ps' with
    | nil =>
      have hj : joinCommaSpace [p] ++ [44] = p ++ 44 :: ([] : Str) := by
        simp [joinCommaSpace]
      rw [hj]
      simp only [List.length_cons, List.length_nil]
      rw [splitnGo_comma hp 0 _ acc]
      simp [splitnGo]
    | cons q t =>
      have hj : joinCommaSpace (p :: q :: t) ++ [44] =
          p ++ 44 :: (32 :: (joinCommaSpace (q :: t) ++ [44])) := by
        rw [joinCommaSpace_cons p (by simp)]
        simp
      rw [hj]
      simp only [List.length_cons]
      rw [splitnGo_comma hp (t.length + 1) _ acc]
      have hstep : splitnGo (t.length + 1) [] (32 :: (joinCommaSpace (q :: t) ++ [44])) =
          splitnGo (t.length + 1) [32] (joinCommaSpace (q :: t) ++ [44]) := by
        simp [splitnGo]
      rw [hstep]
      have hih := ih [32] hrest (by simp)
      simp only [List.length_cons] at hih
      rw [hih]
      simp

theorem length_dropWhile_le' (p : Nat → Bool) : ∀ l : Str, (l.dropWhile p).length ≤ l.length := by
  intro l
  induction l with
  | nil => simp
  | cons a t ih =>
    rw [List.dropWhile_cons]
    by_cases hp : p a
    · simp only [hp, if_true, List.length_cons]
      omega
    · simp [hp]

theorem dropWhile_length_eq {p : Nat → Bool} :
    ∀ l : Str, (l.dropWhile p).length = l.length → l.dropWhile p = l := by
  intro l
  cases l with
  | nil => intro _; rfl
  | cons a t =>
    intro h
    rw [List.dropWhile_cons] at h ⊢
    by_cases hp : p a
    · exfalso
      rw [if_pos hp] at h
      have hle := length_dropWhile_le' p t
      simp only [List.length_cons] at h
      omega
    · simp [hp]

theorem trim_eq_self_parts {p : Str} (h : trim p = p) : trimStart p = p ∧ trimEnd p = p := by
  have h1 : (trimStart p).length ≤ p.length := length_dropWhile_le' _ p
  have h2 : (trimEnd (trimStart p)).length ≤ (trimStart p).length := by
    unfold trimEnd
    calc ((trimStart p).reverse.dropWhile isWsByte).reverse.length
        = ((trimStart p).reverse.dropWhile isWsByte).length := by simp
      _ ≤ (trimStart p).reverse.length := length_dropWhile_le' _ _
      _ = (trimStart p).length := by simp
  have hlen : (trimEnd (trimStart p)).length = p.length := by
    unfold trim at h
    rw [h]
  have hts : (trimStart p).length = p.length := by omega
  have hts2 : trimStart p = p := dropWhile_length_eq _ hts
  refine ⟨hts2, ?_⟩
  unfold trim at h
  rw [hts2] at h
  exact h

theorem trimEnd_append_right {B p : Str} (hne : p ≠ []) (hp : trimEnd p = p) :
    trimEnd (B ++ p) = B ++ p := by
  obtain ⟨y, ys, hy⟩ :=
    List.exists_cons_of_ne_nil (show p.reverse ≠ [] by simpa using hne)
  have hplen : p.length = ys.length + 1 := by
    have : p.reverse.length = ys.length + 1 := by rw [hy]; simp
    simpa using this
  have hyw : isWsByte y = false := by
    by_contra hcon
    have hyw2 : isWsByte y = true := by simpa using hcon
    have hlt : (trimEnd p).length < p.length := by
      unfold trimEnd
      rw [hy, List.dropWhile_cons, hyw2]
      simp only [if_true, List.length_reverse]
      have := length_dropWhile_le' isWsByte ys
      omega
    rw [hp] at hlt
    omega
  unfold trimEnd
  rw [List.reverse_append, hy, List.cons_append, List.dropWhile_cons,
    if_neg (by simp [hyw])]
  rw [show y :: (ys ++ B.reverse) = (y :: ys) ++ B.reverse from rfl,
    List.reverse_append, ← hy, List.reverse_reverse, List.reverse_reverse]

theorem trim_record_line (ps : List Str) (path : Str)
    (hps : ∀ p ∈ ps, NumPart p) (hpath : trim path = path) (hne : ps ≠ []) :
    trim (joinCommaSpace (ps ++ [path]) ++ [10]) =
      (if path = [] then joinCommaSpace ps ++ [44] else joinCommaSpace (ps ++ [path])) := by
  obtain ⟨p0, rest, hp0⟩ := List.exists_cons_of_ne_nil hne
  have hparts := trim_eq_self_parts hpath
  have hp0num : NumPart p0 := hps p0 (by rw [hp0]; simp)
  unfold trim
  have hj : joinCommaSpace (ps ++ [path]) =
      p0 ++ ([44, 32] ++ joinCommaSpace (rest ++ [path])) := by
    rw [hp0, List.cons_append, joinCommaSpace_cons p0 (by simp)]
    simp [List.append_assoc]
  have hstart : trimStart (joinCommaSpace (ps ++ [path]) ++ [10]) =
      joinCommaSpace (ps ++ [path]) ++ [10] := by
    rw [hj, List.append_assoc]
    exact trimStart_append_of_head _ hp0num.1
      (fun x hx => not_ws_of_ge45 (hp0num.2 x hx).1)
  rw [hstart, trimEnd_concat_ws _ (by decide)]
  by_cases hp : path = []
  · subst hp
    rw [if_pos rfl, joinCommaSpace_snoc [] ps hne]
    rw [show joinCommaSpace ps ++ [44, 32] ++ [] =
      (joinCommaSpace ps ++ [44]) ++ [32] by simp]
    rw [trimEnd_concat_ws _ (by decide), trimEnd_concat_not_ws _ (by decide)]
  · rw [if_neg hp]
    have hj2 : joinCommaSpace (ps ++ [path]) = (joinCommaSpace ps ++ [44, 32]) ++ path := by
      rw [joinCommaSpace_snoc path ps hne]
    rw [hj2, trimEnd_append_right hp hparts.2, ← hj2]

theorem record_values (ps : List Str) (path : Str)
    (hps : ∀ p ∈ ps, NumPart p) (hpath : trim path = path) (hne : ps ≠ []) :
    (splitnComma (ps.length + 1) (trim (joinCommaSpace (ps ++ [path]) ++ [10]))).map trim =
      ps ++ [path] := by
  rw [trim_record_line ps path hps hpath hne]
  have hcm : ∀ p ∈ ps, 44 ∉ p := fun p hp => numPart_not_comma (hps p hp)
  have htrimmid : ∀ q ∈ ps, trim (32 :: q) = q := by
    intro q hq
    rw [trim_cons_ws _ (by decide)]
    exact numPart_trim (hps q hq)
  by_cases hp : path = []
  · rw [if_pos hp]
    show (splitnGo ps.length [] (joinCommaSpace ps ++ [44])).map trim = ps ++ [path]
    rw [splitnGo_join44 ps [] hcm hne]
    obtain ⟨p0, rest, rfl⟩ := List.exists_cons_of_ne_nil hne
    simp only [List.reverse_nil, List.nil_append, List.map_append, List.map_cons,
      List.map_map, List.map_nil]
    rw [numPart_trim (hps p0 (by simp))]
    have hmap : rest.map (trim ∘ fun q => 32 :: q) = rest := by
      have h2 : rest.map (trim ∘ fun q => 32 :: q) = rest.map id := by
        apply List.map_congr_left
        intro q hq
        simp only [Function.comp_apply, id_eq]
        exact htrimmid q (by simp [hq])
      rw [h2, List.map_id]
    rw [hmap]
    simp [hp, show trim ([] : Str) = [] from rfl]
  · rw [if_neg hp]
    show (splitnGo ps.length [] (joinCommaSpace (ps ++ [path]))).map trim = ps ++ [path]
    rw [splitnGo_join path ps [] hcm]
    obtain ⟨p0, rest, rfl⟩ := List.exists_cons_of_ne_nil hne
    simp only [List.reverse_nil, List.nil_append, List.map_append, List.map_cons,
      List.map_map, List.map_nil]
    rw [numPart_trim (hps p0 (by simp))]
    have hmap : rest.map (trim ∘ fun q => 32 :: q) = rest := by
      have h2 : rest.map (trim ∘ fun q => 32 :: q) = rest.map id := by
        apply List.map_congr_left
        intro q hq
        simp only [Function.comp_apply, id_eq]
        exact htrimmid q (by simp [hq])
      rw [h2, List.map_id]
    rw [hmap, trim_cons_ws _ (by decide), hpath]

/-! ## Helper lemmas: decoding one emitted module record line -/

theorem parse_module_entry_of_vals_ok (line : Str) (columns vals : List Str) (idv : Nat)
    (h : (splitnComma columns.length line).map trim = vals)
    (hlen : vals.length = columns.length)
    (hidv : (hmGet (strBytes "id") (columns.zip vals)).bind decU32? = some idv) :
    parse_module_entry line columns =
      .ok
        { id := idv
          base := (orOpt ((hmGet (strBytes "base") (columns.zip vals)).bind hexU64?)
            ((hmGet (strBytes "start") (columns.zip vals)).bind hexU64?)).getD 0
          end_ := ((hmGet (strBytes "end") (columns.zip vals)).bind hexU64?).getD 0
          entry := ((hmGet (strBytes "entry") (columns.zip vals)).bind hexU64?).getD 0
          path := (hmGet (strBytes "path") (columns.zip vals)).getD []
          containing_id := (hmGet (strBytes "containing_id") (columns.zip vals)).bind parseI32
          offset := (hmGet (strBytes "offset") (columns.zip vals)).bind hexU64?
          checksum := (hmGet (strBytes "checksum") (columns.zip vals)).bind hexU32?
          timestamp := (hmGet (strBytes "timestamp") (columns.zip vals)).bind hexU32? } := by
  unfold parse_module_entry
  rw [h, if_neg (by omega)]
  dsimp only
  rw [hidv, optCase_some]

theorem parse_module_entry_of_vals_err (line : Str) (columns vals : List Str)
    (h : (splitnComma columns.length line).map trim = vals)
    (hlen : vals.length = columns.length)
    (hid0 : (hmGet (strBytes "id") (columns.zip vals)).bind decU32? = none) :
    parse_module_entry line columns =
      .error (.invalidModuleTable .missingOrInvalidId) := by
  unfold parse_module_entry
  rw [h, if_neg (by omega)]
  dsimp only
  rw [hid0, optCase_none]

/-- The columns emitted for V2 with windows fields. -/
def colsV2win : List Str :=
  [strBytes "id", strBytes "base", strBytes "end", strBytes "entry",
   strBytes "checksum", strBytes "timestamp", strBytes "path"]

/-- The columns emitted for V3 without windows fields. -/
def colsV3 : List Str :=
  [strBytes "id", strBytes "containing_id", strBytes "start", strBytes "end",
   strBytes "entry", strBytes "path"]

/-- The columns emitted for V3 with windows fields. -/
def colsV3win : List Str :=
  [strBytes "id", strBytes "containing_id", strBytes "start", strBytes "end",
   strBytes "entry", strBytes "checksum", strBytes "timestamp", strBytes "path"]

/-- The columns emitted for V4 without windows fields. -/
def colsV4 : List Str :=
  [strBytes "id", strBytes "containing_id", strBytes "start", strBytes "end",
   strBytes "entry", strBytes "offset", strBytes "path"]

/-- The columns emitted for V4 with windows fields. -/
def colsV4win : List Str :=
  [strBytes "id", strBytes "containing_id", strBytes "start", strBytes "end",
   strBytes "entry", strBytes "offset", strBytes "checksum", strBytes "timestamp",
   strBytes "path"]

theorem hmGet_base5 (v0 v1 v2 v3 v4 : Str) :
    hmGet (strBytes "id") (legacyColumns.zip [v0, v1, v2, v3, v4]) = some v0 ∧
    hmGet (strBytes "base") (legacyColumns.zip [v0, v1, v2, v3, v4]) = some v1 ∧
    hmGet (strBytes "start") (legacyColumns.zip [v0, v1, v2, v3, v4]) = none ∧
    hmGet (strBytes "end") (legacyColumns.zip [v0, v1, v2, v3, v4]) = some v2 ∧
    hmGet (strBytes "entry") (legacyColumns.zip [v0, v1, v2, v3, v4]) = some v3 ∧
    hmGet (strBytes "path") (legacyColumns.zip [v0, v1, v2, v3, v4]) = some v4 ∧
    hmGet (strBytes "containing_id") (legacyColumns.zip [v0, v1, v2, v3, v4]) = none ∧
    hmGet (strBytes "offset") (legacyColumns.zip [v0, v1, v2, v3, v4]) = none ∧
    hmGet (strBytes "checksum") (legacyColumns.zip [v0, v1, v2, v3, v4]) = none ∧
    hmGet (strBytes "timestamp") (legacyColumns.zip [v0, v1, v2, v3, v4]) = none :=
  ⟨rfl, rfl, rfl, rfl, rfl, rfl, rfl, rfl, rfl, rfl⟩

theorem hmGet_v2win (v0 v1 v2 v3 v4 v5 v6 : Str) :
    hmGet (strBytes "id") (colsV2win.zip [v0, v1, v2, v3, v4, v5, v6]) = some v0 ∧
    hmGet (strBytes "base") (colsV2win.zip [v0, v1, v2, v3, v4, v5, v6]) = some v1 ∧
    hmGet (strBytes "start") (colsV2win.zip [v0, v1, v2, v3, v4, v5, v6]) = none ∧
    hmGet (strBytes "end") (colsV2win.zip [v0, v1, v2, v3, v4, v5, v6]) = some v2 ∧
    hmGet (strBytes "entry") (colsV2win.zip [v0, v1, v2, v3, v4, v5, v6]) = some v3 ∧
    hmGet (strBytes "path") (colsV2win.zip [v0, v1, v2, v3, v4, v5, v6]) = some v6 ∧
    hmGet (strBytes "containing_id") (colsV2win.zip [v0, v1, v2, v3, v4, v5, v6]) = none ∧
    hmGet (strBytes "offset") (colsV2win.zip [v0, v1, v2, v3, v4, v5, v6]) = none ∧
    hmGet (strBytes "checksum") (colsV2win.zip [v0, v1, v2, v3, v4, v5, v6]) = some v4 ∧
    hmGet (strBytes "timestamp") (colsV2win.zip [v0, v1, v2, v3, v4, v5, v6]) = some v5 :=
  ⟨rfl, rfl, rfl, rfl, rfl, rfl, rfl, rfl, rfl, rfl⟩

theorem hmGet_v3 (v0 v1 v2 v3 v4 v5 : Str) :
    hmGet (strBytes "id") (colsV3.zip [v0, v1, v2, v3, v4, v5]) = some v0 ∧
    hmGet (strBytes "base") (colsV3.zip [v0, v1, v2, v3, v4, v5]) = none ∧
    hmGet (strBytes "start") (colsV3.zip [v0, v1, v2, v3, v4, v5]) = some v2 ∧
    hmGet (strBytes "end") (colsV3.zip [v0, v1, v2, v3, v4, v5]) = some v3 ∧
    hmGet (strBytes "entry") (colsV3.zip [v0, v1, v2, v3, v4, v5]) = some v4 ∧
    hmGet (strBytes "path") (colsV3.zip [v0, v1, v2, v3, v4, v5]) = some v5 ∧
    hmGet (strBytes "containing_id") (colsV3.zip [v0, v1, v2, v3, v4, v5]) = some v1 ∧
    hmGet (strBytes "offset") (colsV3.zip [v0, v1, v2, v3, v4, v5]) = none ∧
    hmGet (strBytes "checksum") (colsV3.zip [v0, v1, v2, v3, v4, v5]) = none ∧
    hmGet (strBytes "timestamp") (colsV3.zip [v0, v1, v2, v3, v4, v5]) = none :=
  ⟨rfl, rfl, rfl, rfl, rfl, rfl, rfl, rfl, rfl, rfl⟩

theorem hmGet_v3win (v0 v1 v2 v3 v4 v5 v6 v7 : Str) :
    hmGet (strBytes "id") (colsV3win.zip [v0, v1, v2, v3, v4, v5, v6, v7]) = some v0 ∧
    hmGet (strBytes "base") (colsV3win.zip [v0, v1, v2, v3, v4, v5, v6, v7]) = none ∧
    hmGet (strBytes "start") (colsV3win.zip [v0, v1, v2, v3, v4, v5, v6, v7]) = some v2 ∧
    hmGet (strBytes "end") (colsV3win.zip [v0, v1, v2, v3, v4, v5, v6, v7]) = some v3 ∧
    hmGet (strBytes "entry") (colsV3win.zip [v0, v1, v2, v3, v4, v5, v6, v7]) = some v4 ∧
    hmGet (strBytes "path") (colsV3win.zip [v0, v1, v2, v3, v4, v5, v6, v7]) = some v7 ∧
    hmGet (strBytes "containing_id") (colsV3win.zip [v0, v1, v2, v3, v4, v5, v6, v7]) = some v1 ∧
    hmGet (strBytes "offset") (colsV3win.zip [v0, v1, v2, v3, v4, v5, v6, v7]) = none ∧
    hmGet (strBytes "checksum") (colsV3win.zip [v0, v1, v2, v3, v4, v5, v6, v7]) = some v5 ∧
    hmGet (strBytes "timestamp") (colsV3win.zip [v0, v1, v2, v3, v4, v5, v6, v7]) = some v6 :=
  ⟨rfl, rfl, rfl, rfl, rfl, rfl, rfl, rfl, rfl, rfl⟩

theorem hmGet_v4 (v0 v1 v2 v3 v4 v5 v6 : Str) :
    hmGet (strBytes "id") (colsV4.zip [v0, v1, v2, v3, v4, v5, v6]) = some v0 ∧
    hmGet (strBytes "base") (colsV4.zip [v0, v1, v2, v3, v4, v5, v6]) = none ∧
    hmGet (strBytes "start") (colsV4.zip [v0, v1, v2, v3, v4, v5, v6]) = some v2 ∧
    hmGet (strBytes "end") (colsV4.zip [v0, v1, v2, v3, v4, v5, v6]) = some v3 ∧
    hmGet (strBytes "entry") (colsV4.zip [v0, v1, v2, v3, v4, v5, v6]) = some v4 ∧
    hmGet (strBytes "path") (colsV4.zip [v0, v1, v2, v3, v4, v5, v6]) = some v6 ∧
    hmGet (strBytes "containing_id") (colsV4.zip [v0, v1, v2, v3, v4, v5, v6]) = some v1 ∧
    hmGet (strBytes "offset") (colsV4.zip [v0, v1, v2, v3, v4, v5, v6]) = some v5 ∧
    hmGet (strBytes "checksum") (colsV4.zip [v0, v1, v2, v3, v4, v5, v6]) = none ∧
    hmGet (strBytes "timestamp") (colsV4.zip [v0, v1, v2, v3, v4, v5, v6]) = none :=
  ⟨rfl, rfl, rfl, rfl, rfl, rfl, rfl, rfl, rfl, rfl⟩

theorem hmGet_v4win (v0 v1 v2 v3 v4 v5 v6 v7 v8 : Str) :
    hmGet (strBytes "id") (colsV4win.zip [v0, v1, v2, v3, v4, v5, v6, v7, v8]) = some v0 ∧
    hmGet (strBytes "base") (colsV4win.zip [v0, v1, v2, v3, v4, v5, v6, v7, v8]) = none ∧
    hmGet (strBytes "start") (colsV4win.zip [v0, v1, v2, v3, v4, v5, v6, v7, v8]) = some v2 ∧
    hmGet (strBytes "end") (colsV4win.zip [v0, v1, v2, v3, v4, v5, v6, v7, v8]) = some v3 ∧
    hmGet (strBytes "entry") (colsV4win.zip [v0, v1, v2, v3, v4, v5, v6, v7, v8]) = some v4 ∧
    hmGet (strBytes "path") (colsV4win.zip [v0, v1, v2, v3, v4, v5, v6, v7, v8]) = some v8 ∧
    hmGet (strBytes "containing_id") (colsV4win.zip [v0, v1, v2, v3, v4, v5, v6, v7, v8]) = some v1 ∧
    hmGet (strBytes "offset") (colsV4win.zip [v0, v1, v2, v3, v4, v5, v6, v7, v8]) = some v5 ∧
    hmGet (strBytes "checksum") (colsV4win.zip [v0, v1, v2, v3, v4, v5, v6, v7, v8]) = some v6 ∧
    hmGet (strBytes "timestamp") (colsV4win.zip [v0, v1, v2, v3, v4, v5, v6, v7, v8]) = some v7 :=
  ⟨rfl, rfl, rfl, rfl, rfl, rfl, rfl, rfl, rfl, rfl⟩

theorem parse_record_v4_win (m : ModuleEntry) (hWF : EntryWF m) (hpw : PathWF m.path)
    (hwin : (m.checksum.isSome || m.timestamp.isSome) = true) :
    parse_module_entry (trim (write_module_line m .V4)) colsV4win =
      .ok (normalizeEntry .V4 true m) := by
  obtain ⟨hid, hbase, hend, hentry, hoff, hcks, hts, hcid⟩ := hWF
  have hline : write_module_line m .V4 =
      joinCommaSpace ([decRepr m.id, cidRepr m.containing_id, hexPad 16 m.base,
        hexPad 16 m.end_, hexPad 16 m.entry, [48, 120] ++ hexRepr (m.offset.getD 0),
        hexPad 8 (m.checksum.getD 0), hexPad 8 (m.timestamp.getD 0)] ++ [m.path]) ++ [10] := by
    simp only [write_module_line, moduleLineParts, ModuleTableVersion.toNat, hwin]
    simp
  have hnum : ∀ p ∈ [decRepr m.id, cidRepr m.containing_id, hexPad 16 m.base,
      hexPad 16 m.end_, hexPad 16 m.entry, [48, 120] ++ hexRepr (m.offset.getD 0),
      hexPad 8 (m.checksum.getD 0), hexPad 8 (m.timestamp.getD 0)], NumPart p := by
    intro p hp
    simp only [List.mem_cons, List.not_mem_nil, or_false] at hp
    rcases hp with rfl | rfl | rfl | rfl | rfl | rfl | rfl | rfl
    · exact numPart_decRepr _
    · unfold cidRepr
      cases m.containing_id with
      | none => exact numPart_neg1
      | some c => exact numPart_i32Repr c
    · exact numPart_hexPad _ _
    · exact numPart_hexPad _ _
    · exact numPart_hexPad _ _
    · exact numPart_0x_hexRepr _
    · exact numPart_hexPad _ _
    · exact numPart_hexPad _ _
  have hvals := record_values _ m.path hnum hpw.2 (by simp)
  have hoffb : m.offset.getD 0 < 2 ^ 64 := by
    cases hx : m.offset with
    | none => norm_num
    | some x => simpa using hoff x (by rw [hx]; rfl)
  have hcksb : m.checksum.getD 0 < 2 ^ 32 := by
    cases hx : m.checksum with
    | none => norm_num
    | some x => simpa using hcks x (by rw [hx]; rfl)
  have htsb : m.timestamp.getD 0 < 2 ^ 32 := by
    cases hx : m.timestamp with
    | none => norm_num
    | some x => simpa using hts x (by rw [hx]; rfl)
  rw [hline]
  rw [parse_module_entry_of_vals_ok _ colsV4win
      ([decRepr m.id, cidRepr m.containing_id, hexPad 16 m.base, hexPad 16 m.end_,
        hexPad 16 m.entry, [48, 120] ++ hexRepr (m.offset.getD 0),
        hexPad 8 (m.checksum.getD 0), hexPad 8 (m.timestamp.getD 0)] ++ [m.path]) m.id
      hvals rfl
      (by
        simp only [List.cons_append, List.nil_append]
        rw [(hmGet_v4win (decRepr m.id) (cidRepr m.containing_id) (hexPad 16 m.base)
          (hexPad 16 m.end_) (hexPad 16 m.entry) (48 :: 120 :: hexRepr (m.offset.getD 0))
          (hexPad 8 (m.checksum.getD 0)) (hexPad 8 (m.timestamp.getD 0)) m.path).1,
          Option.some_bind, decU32_decRepr hid])]
  simp only [List.cons_append, List.nil_append]
  obtain ⟨g1, g2, g3, g4, g5, g6, g7, g8, g9, g10⟩ :=
    hmGet_v4win (decRepr m.id) (cidRepr m.containing_id) (hexPad 16 m.base)
      (hexPad 16 m.end_) (hexPad 16 m.entry) (48 :: 120 :: hexRepr (m.offset.getD 0))
      (hexPad 8 (m.checksum.getD 0)) (hexPad 8 (m.timestamp.getD 0)) m.path
  rw [g2, g3, g4, g5, g6, g7, g8, g9, g10]
  simp only [Option.none_bind, Option.some_bind, orOpt_none]
  rw [hexU64_hexPad hbase, hexU64_hexPad hend, hexU64_hexPad hentry,
    hexU64_0x_hexRepr_cons hoffb, hexU32_hexPad hcksb, hexU32_hexPad htsb]
  have hcidv : parseI32 (cidRepr m.containing_id) = some (m.containing_id.getD (-1)) := by
    cases hx : m.containing_id with
    | none => decide
    | some c =>
      have hb := hcid c (by rw [hx]; rfl)
      rw [cidRepr_some, parseI32_i32Repr hb.1 hb.2]
      rfl
  rw [hcidv]
  simp [normalizeEntry, ModuleTableVersion.toNat]


theorem parse_record_legacy (m : ModuleEntry) (hWF : EntryWF m) (hpw : PathWF m.path)
    (sw : Bool) :
    parse_module_entry (trim (write_module_line m .Legacy)) legacyColumns =
      .ok (normalizeEntry .Legacy sw m) := by
  obtain ⟨hid, hbase, hend, hentry, hoff, hcks, hts, hcid⟩ := hWF
  have hline : write_module_line m .Legacy =
      joinCommaSpace ([decRepr m.id, hexPad 16 m.base, hexPad 16 m.end_,
        hexPad 16 m.entry] ++ [m.path]) ++ [10] := by
    simp only [write_module_line, moduleLineParts, ModuleTableVersion.toNat]
    simp
  have hnum : ∀ p ∈ [decRepr m.id, hexPad 16 m.base, hexPad 16 m.end_, hexPad 16 m.entry],
      NumPart p := by
    intro p hp
    simp only [List.mem_cons, List.not_mem_nil, or_false] at hp
    rcases hp with rfl | rfl | rfl | rfl
    · exact numPart_decRepr _
    · exact numPart_hexPad _ _
    · exact numPart_hexPad _ _
    · exact numPart_hexPad _ _
  have hvals := record_values _ m.path hnum hpw.2 (by simp)
  rw [hline]
  rw [parse_module_entry_of_vals_ok _ legacyColumns
      ([decRepr m.id, hexPad 16 m.base, hexPad 16 m.end_, hexPad 16 m.entry] ++ [m.path]) m.id
      hvals rfl
      (by
        simp only [List.cons_append, List.nil_append]
        rw [(hmGet_base5 (decRepr m.id) (hexPad 16 m.base) (hexPad 16 m.end_)
          (hexPad 16 m.entry) m.path).1, Option.some_bind, decU32_decRepr hid])]
  simp only [List.cons_append, List.nil_append]
  obtain ⟨g1, g2, g3, g4, g5, g6, g7, g8, g9, g10⟩ :=
    hmGet_base5 (decRepr m.id) (hexPad 16 m.base) (hexPad 16 m.end_) (hexPad 16 m.entry) m.path
  rw [g2, g3, g4, g5, g6, g7, g8, g9, g10]
  simp only [Option.none_bind, Option.some_bind]
  rw [hexU64_hexPad hbase, orOpt_some, hexU64_hexPad hend, hexU64_hexPad hentry]
  simp [normalizeEntry, ModuleTableVersion.toNat]

theorem parse_record_v2 (m : ModuleEntry) (hWF : EntryWF m) (hpw : PathWF m.path)
    (hwin : (m.checksum.isSome || m.timestamp.isSome) = false) :
    parse_module_entry (trim (write_module_line m .V2)) legacyColumns =
      .ok (normalizeEntry .V2 false m) := by
  obtain ⟨hid, hbase, hend, hentry, hoff, hcks, hts, hcid⟩ := hWF
  have hline : write_module_line m .V2 =
      joinCommaSpace ([decRepr m.id, hexPad 16 m.base, hexPad 16 m.end_,
        hexPad 16 m.entry] ++ [m.path]) ++ [10] := by
    simp only [write_module_line, moduleLineParts, ModuleTableVersion.toNat, hwin]
    simp
  have hnum : ∀ p ∈ [decRepr m.id, hexPad 16 m.base, hexPad 16 m.end_, hexPad 16 m.entry],
      NumPart p := by
    intro p hp
    simp only [List.mem_cons, List.not_mem_nil, or_false] at hp
    rcases hp with rfl | rfl | rfl | rfl
    · exact numPart_decRepr _
    · exact numPart_hexPad _ _
    · exact numPart_hexPad _ _
    · exact numPart_hexPad _ _
  have hvals := record_values _ m.path hnum hpw.2 (by simp)
  rw [hline]
  rw [parse_module_entry_of_vals_ok _ legacyColumns
      ([decRepr m.id, hexPad 16 m.base, hexPad 16 m.end_, hexPad 16 m.entry] ++ [m.path]) m.id
      hvals rfl
      (by
        simp only [List.cons_append, List.nil_append]
        rw [(hmGet_base5 (decRepr m.id) (hexPad 16 m.base) (hexPad 16 m.end_)
          (hexPad 16 m.entry) m.path).1, Option.some_bind, decU32_decRepr hid])]
  simp only [List.cons_append, List.nil_append]
  obtain ⟨g1, g2, g3, g4, g5, g6, g7, g8, g9, g10⟩ :=
    hmGet_base5 (decRepr m.id) (hexPad 16 m.base) (hexPad 16 m.end_) (hexPad 16 m.entry) m.path
  rw [g2, g3, g4, g5, g6, g7, g8, g9, g10]
  simp only [Option.none_bind, Option.some_bind]
  rw [hexU64_hexPad hbase, orOpt_some, hexU64_hexPad hend, hexU64_hexPad hentry]
  simp [normalizeEntry, ModuleTableVersion.toNat]

theorem parse_record_v2_win (m : ModuleEntry) (hWF : EntryWF m) (hpw : PathWF m.path)
    (hwin : (m.checksum.isSome || m.timestamp.isSome) = true) :
    parse_module_entry (trim (write_module_line m .V2)) colsV2win =
      .ok (normalizeEntry .V2 true m) := by
  obtain ⟨hid, hbase, hend, hentry, hoff, hcks, hts, hcid⟩ := hWF
  have hline : write_module_line m .V2 =
      joinCommaSpace ([decRepr m.id, hexPad 16 m.base, hexPad 16 m.end_, hexPad 16 m.entry,
        hexPad 8 (m.checksum.getD 0), hexPad 8 (m.timestamp.getD 0)] ++ [m.path]) ++ [10] := by
    simp only [write_module_line, moduleLineParts, ModuleTableVersion.toNat, hwin]
    simp
  have hnum : ∀ p ∈ [decRepr m.id, hexPad 16 m.base, hexPad 16 m.end_, hexPad 16 m.entry,
      hexPad 8 (m.checksum.getD 0), hexPad 8 (m.timestamp.getD 0)], NumPart p := by
    intro p hp
    simp only [List.mem_cons, List.not_mem_nil, or_false] at hp
    rcases hp with rfl | rfl | rfl | rfl | rfl | rfl
    · exact numPart_decRepr _
    · exact numPart_hexPad _ _
    · exact numPart_hexPad _ _
    · exact numPart_hexPad _ _
    · exact numPart_hexPad _ _
    · exact numPart_hexPad _ _
  have hvals := record_values _ m.path hnum hpw.2 (by simp)
  have hcksb : m.checksum.getD 0 < 2 ^ 32 := by
    cases hx : m.checksum with
    | none => norm_num
    | some x => simpa using hcks x (by rw [hx]; rfl)
  have htsb : m.timestamp.getD 0 < 2 ^ 32 := by
    cases hx : m.timestamp with
    | none => norm_num
    | some x => simpa using hts x (by rw [hx]; rfl)
  rw [hline]
  rw [parse_module_entry_of_vals_ok _ colsV2win
      ([decRepr m.id, hexPad 16 m.base, hexPad 16 m.end_, hexPad 16 m.entry,
        hexPad 8 (m.checksum.getD 0), hexPad 8 (m.timestamp.getD 0)] ++ [m.path]) m.id
      hvals rfl
      (by
        simp only [List.cons_append, List.nil_append]
        rw [(hmGet_v2win (decRepr m.id) (hexPad 16 m.base) (hexPad 16 m.end_)
          (hexPad 16 m.entry) (hexPad 8 (m.checksum.getD 0)) (hexPad 8 (m.timestamp.getD 0))
          m.path).1, Option.some_bind, decU32_decRepr hid])]
  simp only [List.cons_append, List.nil_append]
  obtain ⟨g1, g2, g3, g4, g5, g6, g7, g8, g9, g10⟩ :=
    hmGet_v2win (decRepr m.id) (hexPad 16 m.base) (hexPad 16 m.end_) (hexPad 16 m.entry)
      (hexPad 8 (m.checksum.getD 0)) (hexPad 8 (m.timestamp.getD 0)) m.path
  rw [g2, g3, g4, g5, g6, g7, g8, g9, g10]
  simp only [Option.none_bind, Option.some_bind]
  rw [hexU64_hexPad hbase, orOpt_some, hexU64_hexPad hend, hexU64_hexPad hentry,
    hexU32_hexPad hcksb, hexU32_hexPad htsb]
  simp [normalizeEntry, ModuleTableVersion.toNat]

theorem parse_record_v3 (m : ModuleEntry) (hWF : EntryWF m) (hpw : PathWF m.path)
    (hwin : (m.checksum.isSome || m.timestamp.isSome) = false) :
    parse_module_entry (trim (write_module_line m .V3)) colsV3 =
      .ok (normalizeEntry .V3 false m) := by
  obtain ⟨hid, hbase, hend, hentry, hoff, hcks, hts, hcid⟩ := hWF
  have hline : write_module_line m .V3 =
      joinCommaSpace ([decRepr m.id, cidRepr m.containing_id, hexPad 16 m.base,
        hexPad 16 m.end_, hexPad 16 m.entry] ++ [m.path]) ++ [10] := by
    simp only [write_module_line, moduleLineParts, ModuleTableVersion.toNat, hwin]
    simp
  have hnum : ∀ p ∈ [decRepr m.id, cidRepr m.containing_id, hexPad 16 m.base,
      hexPad 16 m.end_, hexPad 16 m.entry], NumPart p := by
    intro p hp
    simp only [List.mem_cons, List.not_mem_nil, or_false] at hp
    rcases hp with rfl | rfl | rfl | rfl | rfl
    · exact numPart_decRepr _
    · unfold cidRepr
      cases m.containing_id with
      | none => exact numPart_neg1
      | some c => exact numPart_i32Repr c
    · exact numPart_hexPad _ _
    · exact numPart_hexPad _ _
    · exact numPart_hexPad _ _
  have hvals := record_values _ m.path hnum hpw.2 (by simp)
  rw [hline]
  rw [parse_module_entry_of_vals_ok _ colsV3
      ([decRepr m.id, cidRepr m.containing_id, hexPad 16 m.base, hexPad 16 m.end_,
        hexPad 16 m.entry] ++ [m.path]) m.id
      hvals rfl
      (by
        simp only [List.cons_append, List.nil_append]
        rw [(hmGet_v3 (decRepr m.id) (cidRepr m.containing_id) (hexPad 16 m.base)
          (hexPad 16 m.end_) (hexPad 16 m.entry) m.path).1,
          Option.some_bind, decU32_decRepr hid])]
  simp only [List.cons_append, List.nil_append]
  obtain ⟨g1, g2, g3, g4, g5, g6, g7, g8, g9, g10⟩ :=
    hmGet_v3 (decRepr m.id) (cidRepr m.containing_id) (hexPad 16 m.base) (hexPad 16 m.end_)
      (hexPad 16 m.entry) m.path
  rw [g2, g3, g4, g5, g6, g7, g8, g9, g10]
  simp only [Option.none_bind, Option.some_bind, orOpt_none]
  rw [hexU64_hexPad hbase, hexU64_hexPad hend, hexU64_hexPad hentry]
  have hcidv : parseI32 (cidRepr m.containing_id) = some (m.containing_id.getD (-1)) := by
    cases hx : m.containing_id with
    | none => decide
    | some c =>
      have hb := hcid c (by rw [hx]; rfl)
      rw [cidRepr_some, parseI32_i32Repr hb.1 hb.2]
      rfl
  rw [hcidv]
  simp [normalizeEntry, ModuleTableVersion.toNat]

theorem parse_record_v3_win (m : ModuleEntry) (hWF : EntryWF m) (hpw : PathWF m.path)
    (hwin : (m.checksum.isSome || m.timestamp.isSome) = true) :
    parse_module_entry (trim (write_module_line m .V3)) colsV3win =
      .ok (normalizeEntry .V3 true m) := by
  obtain ⟨hid, hbase, hend, hentry, hoff, hcks, hts, hcid⟩ := hWF
  have hline : write_module_line m .V3 =
      joinCommaSpace ([decRepr m.id, cidRepr m.containing_id, hexPad 16 m.base,
        hexPad 16 m.end_, hexPad 16 m.entry, hexPad 8 (m.checksum.getD 0),
        hexPad 8 (m.timestamp.getD 0)] ++ [m.path]) ++ [10] := by
    simp only [write_module_line, moduleLineParts, ModuleTableVersion.toNat, hwin]
    simp
  have hnum : ∀ p ∈ [decRepr m.id, cidRepr m.containing_id, hexPad 16 m.base,
      hexPad 16 m.end_, hexPad 16 m.entry, hexPad 8 (m.checksum.getD 0),
      hexPad 8 (m.timestamp.getD 0)], NumPart p := by
    intro p hp
    simp only [List.mem_cons, List.not_mem_nil, or_false] at hp
    rcases hp with rfl | rfl | rfl | rfl | rfl | rfl | rfl
    · exact numPart_decRepr _
    · unfold cidRepr
      cases m.containing_id with
      | none => exact numPart_neg1
      | some c => exact numPart_i32Repr c
    · exact numPart_hexPad _ _
    · exact numPart_hexPad _ _
    · exact numPart_hexPad _ _
    · exact numPart_hexPad _ _
    · exact numPart_hexPad _ _
  have hvals := record_values _ m.path hnum hpw.2 (by simp)
  have hcksb : m.checksum.getD 0 < 2 ^ 32 := by
    cases hx : m.checksum with
    | none => norm_num
    | some x => simpa using hcks x (by rw [hx]; rfl)
  have htsb : m.timestamp.getD 0 < 2 ^ 32 := by
    cases hx : m.timestamp with
    | none => norm_num
    | some x => simpa using hts x (by rw [hx]; rfl)
  rw [hline]
  rw [parse_module_entry_of_vals_ok _ colsV3win
      ([decRepr m.id, cidRepr m.containing_id, hexPad 16 m.base, hexPad 16 m.end_,
        hexPad 16 m.entry, hexPad 8 (m.checksum.getD 0),
        hexPad 8 (m.timestamp.getD 0)] ++ [m.path]) m.id
      hvals rfl
      (by
        simp only [List.cons_append, List.nil_append]
        rw [(hmGet_v3win (decRepr m.id) (cidRepr m.containing_id) (hexPad 16 m.base)
          (hexPad 16 m.end_) (hexPad 16 m.entry) (hexPad 8 (m.checksum.getD 0))
          (hexPad 8 (m.timestamp.getD 0)) m.path).1,
          Option.some_bind, decU32_decRepr hid])]
  simp only [List.cons_append, List.nil_append]
  obtain ⟨g1, g2, g3, g4, g5, g6, g7, g8, g9, g10⟩ :=
    hmGet_v3win (decRepr m.id) (cidRepr m.containing_id) (hexPad 16 m.base) (hexPad 16 m.end_)
      (hexPad 16 m.entry) (hexPad 8 (m.checksum.getD 0)) (hexPad 8 (m.timestamp.getD 0)) m.path
  rw [g2, g3, g4, g5, g6, g7, g8, g9, g10]
  simp only [Option.none_bind, Option.some_bind, orOpt_none]
  rw [hexU64_hexPad hbase, hexU64_hexPad hend, hexU64_hexPad hentry,
    hexU32_hexPad hcksb, hexU32_hexPad htsb]
  have hcidv : parseI32 (cidRepr m.containing_id) = some (m.containing_id.getD (-1)) := by
    cases hx : m.containing_id with
    | none => decide
    | some c =>
      have hb := hcid c (by rw [hx]; rfl)
      rw [cidRepr_some, parseI32_i32Repr hb.1 hb.2]
      rfl
  rw [hcidv]
  simp [normalizeEntry, ModuleTableVersion.toNat]

theorem parse_record_v4 (m : ModuleEntry) (hWF : EntryWF m) (hpw : PathWF m.path)
    (hwin : (m.checksum.isSome || m.timestamp.isSome) = false) :
    parse_module_entry (trim (write_module_line m .V4)) colsV4 =
      .ok (normalizeEntry .V4 false m) := by
  obtain ⟨hid, hbase, hend, hentry, hoff, hcks, hts, hcid⟩ := hWF
  have hline : write_module_line m .V4 =
      joinCommaSpace ([decRepr m.id, cidRepr m.containing_id, hexPad 16 m.base,
        hexPad 16 m.end_, hexPad 16 m.entry,
        [48, 120] ++ hexRepr (m.offset.getD 0)] ++ [m.path]) ++ [10] := by
    simp only [write_module_line, moduleLineParts, ModuleTableVersion.toNat, hwin]
    simp
  have hnum : ∀ p ∈ [decRepr m.id, cidRepr m.containing_id, hexPad 16 m.base,
      hexPad 16 m.end_, hexPad 16 m.entry, [48, 120] ++ hexRepr (m.offset.getD 0)],
      NumPart p := by
    intro p hp
    simp only [List.mem_cons, List.not_mem_nil, or_false] at hp
    rcases hp with rfl | rfl | rfl | rfl | rfl | rfl
    · exact numPart_decRepr _
    · unfold cidRepr
      cases m.containing_id with
      | none => exact numPart_neg1
      | some c => exact numPart_i32Repr c
    · exact numPart_hexPad _ _
    · exact numPart_hexPad _ _
    · exact numPart_hexPad _ _
    · exact numPart_0x_hexRepr _
  have hvals := record_values _ m.path hnum hpw.2 (by simp)
  have hoffb : m.offset.getD 0 < 2 ^ 64 := by
    cases hx : m.offset with
    | none => norm_num
    | some x => simpa using hoff x (by rw [hx]; rfl)
  rw [hline]
  rw [parse_module_entry_of_vals_ok _ colsV4
      ([decRepr m.id, cidRepr m.containing_id, hexPad 16 m.base, hexPad 16 m.end_,
        hexPad 16 m.entry, [48, 120] ++ hexRepr (m.offset.getD 0)] ++ [m.path]) m.id
      hvals rfl
      (by
        simp only [List.cons_append, List.nil_append]
        rw [(hmGet_v4 (decRepr m.id) (cidRepr m.containing_id) (hexPad 16 m.base)
          (hexPad 16 m.end_) (hexPad 16 m.entry) (48 :: 120 :: hexRepr (m.offset.getD 0))
          m.path).1, Option.some_bind, decU32_decRepr hid])]
  simp only [List.cons_append, List.nil_append]
  obtain ⟨g1, g2, g3, g4, g5, g6, g7, g8, g9, g10⟩ :=
    hmGet_v4 (decRepr m.id) (cidRepr m.containing_id) (hexPad 16 m.base) (hexPad 16 m.end_)
      (hexPad 16 m.entry) (48 :: 120 :: hexRepr (m.offset.getD 0)) m.path
  rw [g2, g3, g4, g5, g6, g7, g8, g9, g10]
  simp only [Option.none_bind, Option.some_bind, orOpt_none]
  rw [hexU64_hexPad hbase, hexU64_hexPad hend, hexU64_hexPad hentry,
    hexU64_0x_hexRepr_cons hoffb]
  have hcidv : parseI32 (cidRepr m.containing_id) = some (m.containing_id.getD (-1)) := by
    cases hx : m.containing_id with
    | none => decide
    | some c =>
      have hb := hcid c (by rw [hx]; rfl)
      rw [cidRepr_some, parseI32_i32Repr hb.1 hb.2]
      rfl
  rw [hcidv]
  simp [normalizeEntry, ModuleTableVersion.toNat]


/-! ## Helper lemmas: streams of emitted lines and binary payloads -/

theorem bind_ok {e a b : Type} (x : a) (f : a → Except e b) :
    (Except.ok x : Except e a) >>= f = f x := rfl

theorem bind_err {e a b : Type} (err : e) (f : a → Except e b) :
    (Except.error err : Except e a) >>= f = Except.error err := rfl

theorem pure_eq_ok {e a : Type} (x : a) : (pure x : Except e a) = Except.ok x := rfl

theorem leU32_u32le {n : Nat} (h : n < 2 ^ 32) :
    leU32 (n % 256) (n / 256 % 256) (n / 65536 % 256) (n / 16777216 % 256) = n := by
  unfold leU32
  omega

theorem leU16_u16le {n : Nat} (h : n < 2 ^ 16) :
    leU16 (n % 256) (n / 256 % 256) = n := by
  unfold leU16
  omega

theorem encodeBlock_length (b : BasicBlock) : (encodeBlock b).length = 8 := rfl

theorem flatten_encodeBlocks_length (bs : List BasicBlock) :
    ((bs.map encodeBlock).flatten).length = 8 * bs.length := by
  induction bs with
  | nil => simp
  | cons b r ih =>
    simp only [List.map_cons, List.flatten_cons, List.length_append, encodeBlock_length, ih,
      List.length_cons]
    ring

theorem decodeBlocks_encode {bs : List BasicBlock} (h : ∀ b ∈ bs, BlockWF b) :
    ∀ tail, decodeBlocks bs.length ((bs.map encodeBlock).flatten ++ tail) = bs := by
  induction bs with
  | nil => intro tail; simp [decodeBlocks]
  | cons b r ih =>
    intro tail
    obtain ⟨hs, hz, hm⟩ := h b (by simp)
    have hrest : ∀ x ∈ r, BlockWF x := fun x hx => h x (by simp [hx])
    simp only [List.map_cons, List.flatten_cons, List.length_cons, List.append_assoc]
    show decodeBlocks (r.length + 1)
      (encodeBlock b ++ ((r.map encodeBlock).flatten ++ tail)) = b :: r
    simp only [encodeBlock, u32le, u16le, List.cons_append, List.nil_append]
    rw [show decodeBlocks (r.length + 1)
        (b.start % 256 :: b.start / 256 % 256 :: b.start / 65536 % 256 ::
          b.start / 16777216 % 256 :: b.size % 256 :: b.size / 256 % 256 ::
          b.module_id % 256 :: b.module_id / 256 % 256 ::
          ((r.map encodeBlock).flatten ++ tail)) =
      { start := leU32 (b.start % 256) (b.start / 256 % 256) (b.start / 65536 % 256)
          (b.start / 16777216 % 256),
        size := leU16 (b.size % 256) (b.size / 256 % 256),
        module_id := leU16 (b.module_id % 256) (b.module_id / 256 % 256) } ::
        decodeBlocks r.length ((r.map encodeBlock).flatten ++ tail) from rfl]
    rw [leU32_u32le hs, leU16_u16le hz, leU16_u16le hm, ih hrest tail]

theorem mem_moduleLineParts {m : ModuleEntry} {v : ModuleTableVersion} {p : Str}
    (hp : p ∈ moduleLineParts m v) : NumPart p ∨ p = m.path := by
  have hcid : NumPart (cidRepr m.containing_id) := by
    unfold cidRepr
    cases m.containing_id with
    | none => exact numPart_neg1
    | some c => exact numPart_i32Repr c
  simp only [moduleLineParts] at hp
  rcases List.mem_append.mp hp with h | h
  · rcases List.mem_append.mp h with h | h
    · rcases List.mem_append.mp h with h | h
      · rcases List.mem_append.mp h with h | h
        · rcases List.mem_append.mp h with h | h
          · have : p = decRepr m.id := by simpa using h
            subst this
            exact Or.inl (numPart_decRepr _)
          · split at h
            · have : p = cidRepr m.containing_id := by simpa using h
              subst this
              exact Or.inl hcid
            · cases h
        · have : p = hexPad 16 m.base ∨ p = hexPad 16 m.end_ ∨ p = hexPad 16 m.entry := by
            simpa using h
          rcases this with rfl | rfl | rfl
          · exact Or.inl (numPart_hexPad _ _)
          · exact Or.inl (numPart_hexPad _ _)
          · exact Or.inl (numPart_hexPad _ _)
      · split at h
        · have : p = [48, 120] ++ hexRepr (m.offset.getD 0) := by simpa using h
          subst this
          exact Or.inl (numPart_0x_hexRepr _)
        · cases h
    · cases hb2 : (if v = ModuleTableVersion.Legacy then false
          else m.checksum.isSome || m.timestamp.isSome) with
      | false =>
        rw [hb2] at h
        simp at h
      | true =>
        rw [hb2] at h
        have : p = hexPad 8 (m.checksum.getD 0) ∨ p = hexPad 8 (m.timestamp.getD 0) := by
          simpa using h
        rcases this with rfl | rfl
        · exact Or.inl (numPart_hexPad _ _)
        · exact Or.inl (numPart_hexPad _ _)
  · have : p = m.path := by simpa using h
    exact Or.inr this

theorem no10_write_body {m : ModuleEntry} {v : ModuleTableVersion} (hp : 10 ∉ m.path) :
    10 ∉ joinCommaSpace (moduleLineParts m v) := by
  intro hmem
  rcases mem_joinCommaSpace hmem with ⟨q, hq, hx⟩ | h | h
  · rcases mem_moduleLineParts hq with hnum | rfl
    · have := hnum.2 10 hx
      omega
    · exact hp hx
  · omega
  · omega

theorem readLine_write_module_line (m : ModuleEntry) (v : ModuleTableVersion) (rest : Str)
    (hp : 10 ∉ m.path) :
    readLine (write_module_line m v ++ rest) = (write_module_line m v, rest) := by
  show readLine ((joinCommaSpace (moduleLineParts m v) ++ [10]) ++ rest) = _
  rw [List.append_assoc]
  exact readLine_append rest (no10_write_body hp)

theorem dropPfx?_ne_head {a b : Nat} {pr lr : Str} (h : a ≠ b) :
    dropPfx? (a :: pr) (b :: lr) = none := by
  unfold dropPfx?
  rw [if_neg]
  intro hc
  simp only [List.isPrefixOf, Bool.and_eq_true, beq_iff_eq] at hc
  exact h hc.1

theorem trim_line {b0 : Nat} {body tail : Str} (hb0 : isWsByte b0 = false)
    (htail : tail ≠ []) (htt : trimEnd tail = tail) :
    trim ((b0 :: body ++ tail) ++ [10]) = b0 :: body ++ tail := by
  unfold trim
  rw [show (b0 :: body ++ tail) ++ [10] = b0 :: (body ++ tail ++ [10]) by simp]
  rw [trimStart_cons_not_ws _ hb0]
  rw [show b0 :: (body ++ tail ++ [10]) = (b0 :: (body ++ tail)) ++ [10] by simp]
  rw [trimEnd_concat_ws _ (by decide)]
  rw [show b0 :: (body ++ tail) = (b0 :: body) ++ tail by simp]
  rw [trimEnd_append_right htail htt]

theorem normalizeEntry_id (v : ModuleTableVersion) (w : Bool) (m : ModuleEntry) :
    (normalizeEntry v w m).id = m.id := rfl

theorem checkIds_map_normalize (v : ModuleTableVersion) (w : Bool) :
    ∀ (ms : List ModuleEntry) (i : Nat),
      checkIds i (ms.map (normalizeEntry v w)) = checkIds i ms := by
  intro ms
  induction ms with
  | nil => intro i; rfl
  | cons m r ih =>
    intro i
    simp only [List.map_cons, checkIds, normalizeEntry_id, ih]

theorem validate_normalizeData {d : CoverageData} (h : d.validate = .ok ()) :
    (normalizeData d).validate = .ok () := by
  unfold CoverageData.validate at h ⊢
  unfold normalizeData
  simp only [checkIds_map_normalize, List.length_map]
  exact h

theorem parseModulesLoop_emitted (v : ModuleTableVersion) (columns : List Str) (setWin : Bool) :
    ∀ (ms : List ModuleEntry) (i : Nat) (rest : Str),
      (∀ m ∈ ms, 10 ∉ m.path) →
      (∀ m ∈ ms, parse_module_entry (trim (write_module_line m v)) columns =
        .ok (normalizeEntry v setWin m)) →
      (∀ j (hj : j < ms.length), (ms.get ⟨j, hj⟩).id = i + j) →
      parseModulesLoop columns i ms.length
          ((ms.map fun m => write_module_line m v).flatten ++ rest) =
        .ok (ms.map (normalizeEntry v setWin), rest) := by
  intro ms
  induction ms with
  | nil => intro i rest _ _ _; simp [parseModulesLoop]
  | cons m ms' ih =>
    intro i rest hp hpe hseq
    simp only [List.map_cons, List.flatten_cons, List.length_cons, List.append_assoc]
    show parseModulesLoop columns i (ms'.length + 1)
      (write_module_line m v ++ ((ms'.map fun m => write_module_line m v).flatten ++ rest)) = _
    simp only [parseModulesLoop]
    rw [readLine_write_module_line m v _ (hp m (by simp))]
    dsimp only
    rw [hpe m (by simp), bind_ok]
    have hmid : m.id = i := by
      have := hseq 0 (by simp)
      simpa using this
    rw [if_neg (by simp [normalizeEntry_id, hmid])]
    have hseq2 : ∀ j (hj : j < ms'.length), (ms'.get ⟨j, hj⟩).id = (i + 1) + j := by
      intro j hj
      have := hseq (j + 1) (by simpa using Nat.succ_lt_succ hj)
      simpa [Nat.add_assoc, Nat.add_comm 1 j] using this
    rw [ih (i + 1) rest (fun x hx => hp x (by simp [hx]))
      (fun x hx => hpe x (by simp [hx])) hseq2, bind_ok]
    rfl


theorem append_ne_nil_left {l1 l2 : Str} (h : l1 ≠ []) : l1 ++ l2 ≠ [] := by
  intro hc
  exact h (List.append_eq_nil.mp hc).1

theorem trim_pre_tail {pre tail : Str} (hpre : pre ≠ [])
    (hh : isWsByte (pre.headD 0) = false) (htail : tail ≠ []) (htt : trimEnd tail = tail) :
    trim (pre ++ tail ++ [10]) = pre ++ tail := by
  obtain ⟨b0, pr, rfl⟩ := List.exists_cons_of_ne_nil hpre
  have hh2 : isWsByte b0 = false := by simpa using hh
  have h := @trim_line b0 pr tail hh2 htail htt
  simpa [List.cons_append] using h

theorem trim_pre_tail_nonl {pre tail : Str} (hpre : pre ≠ [])
    (hh : isWsByte (pre.headD 0) = false) (htail : tail ≠ []) (htt : trimEnd tail = tail) :
    trim (pre ++ tail) = pre ++ tail := by
  obtain ⟨b0, pr, rfl⟩ := List.exists_cons_of_ne_nil hpre
  have hh2 : isWsByte b0 = false := by simpa using hh
  unfold trim
  rw [show (b0 :: pr) ++ tail = b0 :: (pr ++ tail) by simp]
  rw [trimStart_cons_not_ws _ hh2]
  rw [show b0 :: (pr ++ tail) = (b0 :: pr) ++ tail by simp]
  rw [trimEnd_append_right htail htt]

theorem trimEnd_decRepr (n : Nat) : trimEnd (decRepr n) = decRepr n :=
  trimEnd_eq_self fun x hx => not_ws_of_ge45 ((numPart_decRepr n).2 x hx).1

theorem toNat_lt (v : ModuleTableVersion) : v.toNat < 2 ^ 32 := by
  cases v <;> simp [ModuleTableVersion.toNat]

theorem parse_module_table_versioned (v : ModuleTableVersion) (hv : v ≠ ModuleTableVersion.Legacy)
    (ms : List ModuleEntry) (setWin : Bool) (C : List Str) (colsStr : Str) (rest : Str)
    (hlen : ms.length < 2 ^ 64)
    (hColsParse : (splitComma colsStr).map trim = C)
    (hcols10 : 10 ∉ colsStr)
    (hColsTrim : trim (columnsPfx ++ colsStr ++ [10]) = columnsPfx ++ colsStr)
    (hpaths : ∀ m ∈ ms, 10 ∉ m.path)
    (hrec : ∀ m ∈ ms, parse_module_entry (trim (write_module_line m v)) C =
      .ok (normalizeEntry v setWin m))
    (hseq : ∀ j (hj : j < ms.length), (ms.get ⟨j, hj⟩).id = j) :
    parse_module_table
      (moduleTablePfx ++ strBytes "version " ++ decRepr v.toNat ++ strBytes ", count " ++
        decRepr ms.length ++ [10] ++
        (columnsPfx ++ colsStr ++ [10]) ++
        ((ms.map fun m => write_module_line m v).flatten ++ rest)) =
      .ok (ms.map (normalizeEntry v setWin), v, rest) := by
  have hB10 : (10 : Nat) ∉ moduleTablePfx ++ strBytes "version " ++ decRepr v.toNat ++
      strBytes ", count " ++ decRepr ms.length := by
    intro hmem
    simp only [List.append_assoc, List.mem_append] at hmem
    have hvnum : ∀ x ∈ decRepr v.toNat, 45 ≤ x ∧ x ≤ 120 := (numPart_decRepr _).2
    have hcnum : ∀ x ∈ decRepr ms.length, 45 ≤ x ∧ x ≤ 120 := (numPart_decRepr _).2
    rcases hmem with h | h | h | h | h
    · revert h; decide
    · revert h; decide
    · have := hvnum 10 h; omega
    · revert h; decide
    · have := hcnum 10 h; omega
  have hread1 : readLine ((moduleTablePfx ++ strBytes "version " ++ decRepr v.toNat ++
      strBytes ", count " ++ decRepr ms.length) ++ 10 ::
        ((columnsPfx ++ colsStr ++ [10]) ++
          ((ms.map fun m => write_module_line m v).flatten ++ rest))) =
      ((moduleTablePfx ++ strBytes "version " ++ decRepr v.toNat ++
        strBytes ", count " ++ decRepr ms.length) ++ [10],
        (columnsPfx ++ colsStr ++ [10]) ++
          ((ms.map fun m => write_module_line m v).flatten ++ rest)) :=
    readLine_append _ hB10
  have htrim1 : trim ((moduleTablePfx ++ strBytes "version " ++ decRepr v.toNat ++
      strBytes ", count " ++ decRepr ms.length) ++ [10]) =
      moduleTablePfx ++ strBytes "version " ++ decRepr v.toNat ++
        strBytes ", count " ++ decRepr ms.length := by
    have := @trim_pre_tail
      (moduleTablePfx ++ strBytes "version " ++ decRepr v.toNat ++ strBytes ", count ")
      (decRepr ms.length)
      (append_ne_nil_left (append_ne_nil_left (append_ne_nil_left (by decide))))
      (by rfl) (natToBase_ne_nil 10 ms.length) (trimEnd_decRepr ms.length)
    simpa [List.append_assoc] using this
  have hs4dn : (44 : Nat) ∉ strBytes " count " ++ decRepr ms.length := by
    intro hmem
    rcases List.mem_append.mp hmem with h | h
    · revert h; decide
    · have := (numPart_decRepr ms.length).2 44 h
      omega
  have hsplit : splitComma (decRepr v.toNat ++ (strBytes ", count " ++ decRepr ms.length)) =
      [decRepr v.toNat, strBytes " count " ++ decRepr ms.length] := by
    rw [show strBytes ", count " = 44 :: strBytes " count " from by decide]
    rw [show decRepr v.toNat ++ ((44 :: strBytes " count ") ++ decRepr ms.length) =
      decRepr v.toNat ++ 44 :: (strBytes " count " ++ decRepr ms.length) from by simp]
    unfold splitComma
    rw [show (decRepr v.toNat ++ 44 :: (strBytes " count " ++ decRepr ms.length)).length =
      ((decRepr v.toNat).length + (strBytes " count " ++ decRepr ms.length).length) + 1 from by
        simp
        omega]
    rw [splitnGo_comma (numPart_not_comma (numPart_decRepr _)) _ _ []]
    rw [splitnGo_no_comma hs4dn _ []]
    simp
  have htrimp1 : trim (strBytes " count " ++ decRepr ms.length) =
      strBytes "count " ++ decRepr ms.length := by
    rw [show strBytes " count " = 32 :: strBytes "count " from by decide]
    rw [show (32 :: strBytes "count ") ++ decRepr ms.length =
      32 :: (strBytes "count " ++ decRepr ms.length) from by simp]
    rw [trim_cons_ws _ (by decide)]
    exact trim_pre_tail_nonl (by decide) (by rfl) (natToBase_ne_nil 10 ms.length)
      (trimEnd_decRepr ms.length)
  have hver : (if v.toNat = 2 then Except.ok ModuleTableVersion.V2
      else if v.toNat = 3 then Except.ok ModuleTableVersion.V3
      else if v.toNat = 4 then Except.ok ModuleTableVersion.V4
      else Except.error (Error.invalidModuleTable
        (MtMsg.unsupportedModuleTableVersion v.toNat))) = Except.ok v := by
    cases v with
    | Legacy => exact absurd rfl hv
    | V2 => rfl
    | V3 => rfl
    | V4 => rfl
  have hCols10 : (10 : Nat) ∉ columnsPfx ++ colsStr := by
    intro hmem
    rcases List.mem_append.mp hmem with h | h
    · revert h; decide
    · exact hcols10 h
  have hg0 : [decRepr v.toNat, strBytes " count " ++ decRepr ms.length].getD 0 [] =
    decRepr v.toNat := rfl
  have hg1 : [decRepr v.toNat, strBytes " count " ++ decRepr ms.length].getD 1 [] =
    strBytes " count " ++ decRepr ms.length := rfl
  simp only [parse_module_table]
  rw [show moduleTablePfx ++ strBytes "version " ++ decRepr v.toNat ++ strBytes ", count " ++
      decRepr ms.length ++ [10] ++ (columnsPfx ++ colsStr ++ [10]) ++
      ((ms.map fun m => write_module_line m v).flatten ++ rest) =
    (moduleTablePfx ++ strBytes "version " ++ decRepr v.toNat ++ strBytes ", count " ++
      decRepr ms.length) ++ 10 :: ((columnsPfx ++ colsStr ++ [10]) ++
        ((ms.map fun m => write_module_line m v).flatten ++ rest)) from by
    simp [List.append_assoc]]
  rw [hread1]
  dsimp only
  rw [htrim1]
  rw [show moduleTablePfx ++ strBytes "version " ++ decRepr v.toNat ++ strBytes ", count " ++
      decRepr ms.length = moduleTablePfx ++ (strBytes "version " ++ (decRepr v.toNat ++
        (strBytes ", count " ++ decRepr ms.length))) from by simp [List.append_assoc]]
  rw [dropPfx?_append, optCase_some, bind_ok, dropPfx?_append, optCase_some]
  rw [hsplit]
  rw [if_neg (by simp)]
  rw [hg0, hg1, numPart_trim (numPart_decRepr _), decU32_decRepr (toNat_lt v),
    optCase_some, bind_ok, htrimp1, dropPfx?_append, optCase_some, bind_ok,
    decUsize_decRepr hlen, optCase_some, bind_ok, hver, bind_ok, bind_ok]
  dsimp only
  rw [if_pos hv]
  rw [show columnsPfx ++ colsStr ++ [10] ++
      ((ms.map fun m => write_module_line m v).flatten ++ rest) =
    (columnsPfx ++ colsStr) ++ 10 ::
      ((ms.map fun m => write_module_line m v).flatten ++ rest) from by simp]
  rw [readLine_append _ hCols10]
  dsimp only
  rw [hColsTrim, dropPfx?_append, optCase_some, bind_ok, hColsParse]
  dsimp only
  rw [parseModulesLoop_emitted v C setWin ms 0 rest hpaths hrec
    (by intro j hj; simpa using hseq j hj), bind_ok]
  rfl


theorem parse_module_table_legacy (ms : List ModuleEntry) (setWin : Bool) (rest : Str)
    (hlen : ms.length < 2 ^ 64)
    (hpaths : ∀ m ∈ ms, 10 ∉ m.path)
    (hrec : ∀ m ∈ ms,
      parse_module_entry (trim (write_module_line m .Legacy)) legacyColumns =
        .ok (normalizeEntry .Legacy setWin m))
    (hseq : ∀ j (hj : j < ms.length), (ms.get ⟨j, hj⟩).id = j) :
    parse_module_table
      (moduleTablePfx ++ decRepr ms.length ++ [10] ++
        ((ms.map fun m => write_module_line m .Legacy).flatten ++ rest)) =
      .ok (ms.map (normalizeEntry .Legacy setWin), .Legacy, rest) := by
  have hB10 : (10 : Nat) ∉ moduleTablePfx ++ decRepr ms.length := by
    intro hmem
    rcases List.mem_append.mp hmem with h | h
    · revert h; decide
    · have := (numPart_decRepr ms.length).2 10 h
      omega
  have hread1 : readLine ((moduleTablePfx ++ decRepr ms.length) ++ 10 ::
      ((ms.map fun m => write_module_line m .Legacy).flatten ++ rest)) =
      ((moduleTablePfx ++ decRepr ms.length) ++ [10],
        (ms.map fun m => write_module_line m .Legacy).flatten ++ rest) :=
    readLine_append _ hB10
  have htrim1 : trim ((moduleTablePfx ++ decRepr ms.length) ++ [10]) =
      moduleTablePfx ++ decRepr ms.length :=
    trim_pre_tail (by decide) (by rfl) (natToBase_ne_nil 10 ms.length)
      (trimEnd_decRepr ms.length)
  have hnover : dropPfx? (strBytes "version ") (decRepr ms.length) = none := by
    obtain ⟨x, xs, hx⟩ := List.exists_cons_of_ne_nil (natToBase_ne_nil 10 ms.length)
    have hxb := natToBase_mem (show (2:Nat) ≤ 10 by norm_num) (by norm_num)
      (show x ∈ natToBase 10 ms.length by rw [hx]; simp)
    rw [show decRepr ms.length = x :: xs from hx,
      show strBytes "version " = 118 :: strBytes "ersion " from by decide]
    exact dropPfx?_ne_head (by omega)
  simp only [parse_module_table]
  rw [show moduleTablePfx ++ decRepr ms.length ++ [10] ++
      ((ms.map fun m => write_module_line m .Legacy).flatten ++ rest) =
    (moduleTablePfx ++ decRepr ms.length) ++ 10 ::
      ((ms.map fun m => write_module_line m .Legacy).flatten ++ rest) from by simp]
  rw [hread1]
  dsimp only
  rw [htrim1, dropPfx?_append, optCase_some, bind_ok, hnover, optCase_none,
    decUsize_decRepr hlen, optCase_some, bind_ok]
  dsimp only
  rw [if_neg (by simp)]
  rw [bind_ok]
  dsimp only
  rw [parseModulesLoop_emitted .Legacy legacyColumns setWin ms 0 rest hpaths hrec
    (by intro j hj; simpa using hseq j hj), bind_ok]
  rfl


theorem firstWsToken_ws_cons {a rest : Str} (hne : a ≠ [])
    (ha : ∀ x ∈ a, isWsByte x = false) :
    firstWsToken (32 :: (a ++ 32 :: rest)) = a := by
  unfold firstWsToken
  rw [List.dropWhile_cons, if_pos (by decide)]
  obtain ⟨x, xs, rfl⟩ := List.exists_cons_of_ne_nil hne
  rw [show (x :: xs) ++ 32 :: rest = x :: (xs ++ 32 :: rest) from rfl]
  rw [List.dropWhile_cons, if_neg (by simp [ha x (by simp)])]
  rw [show x :: (xs ++ 32 :: rest) = (x :: xs) ++ 32 :: rest from rfl]
  exact takeWhile_not_ws_append _ ha (by decide)

theorem parse_bb_table_emitted (bs : List BasicBlock) (hlen : bs.length < 2 ^ 64)
    (hWF : ∀ b ∈ bs, BlockWF b) :
    parse_bb_table ((bbTablePfx ++ [32] ++ decRepr bs.length ++ strBytes " bbs") ++ 10 ::
      (if bs.isEmpty then [] else (bs.map encodeBlock).flatten)) = .ok bs := by
  have hB10 : (10 : Nat) ∉ bbTablePfx ++ [32] ++ decRepr bs.length ++ strBytes " bbs" := by
    intro hmem
    simp only [List.append_assoc, List.mem_append] at hmem
    rcases hmem with h | h | h | h
    · revert h; decide
    · revert h; decide
    · have := (numPart_decRepr bs.length).2 10 h
      omega
    · revert h; decide
  have hread1 := @readLine_append
    (bbTablePfx ++ [32] ++ decRepr bs.length ++ strBytes " bbs")
    (if bs.isEmpty then [] else (bs.map encodeBlock).flatten) hB10
  have htrim1 : trim ((bbTablePfx ++ [32] ++ decRepr bs.length ++ strBytes " bbs") ++ [10]) =
      bbTablePfx ++ [32] ++ decRepr bs.length ++ strBytes " bbs" := by
    have := @trim_pre_tail (bbTablePfx ++ [32] ++ decRepr bs.length)
      (strBytes " bbs")
      (append_ne_nil_left (append_ne_nil_left (by decide)))
      (by rfl) (by decide) (by decide)
    simpa [List.append_assoc] using this
  have htok : firstWsToken ([32] ++ (decRepr bs.length ++ strBytes " bbs")) =
      decRepr bs.length := by
    rw [show ([32] : Str) ++ (decRepr bs.length ++ strBytes " bbs") =
      32 :: (decRepr bs.length ++ 32 :: strBytes "bbs") from by
        rw [show strBytes " bbs" = 32 :: strBytes "bbs" from by decide]
        rfl]
    exact firstWsToken_ws_cons (natToBase_ne_nil 10 bs.length)
      (fun x hx => not_ws_of_ge45 ((numPart_decRepr bs.length).2 x hx).1)
  simp only [parse_bb_table]
  rw [hread1]
  dsimp only
  rw [if_neg (by simp)]
  rw [htrim1]
  rw [show bbTablePfx ++ [32] ++ decRepr bs.length ++ strBytes " bbs" =
    bbTablePfx ++ ([32] ++ (decRepr bs.length ++ strBytes " bbs")) from by
      simp [List.append_assoc]]
  rw [dropPfx?_append, optCase_some, bind_ok]
  rw [htok]
  rw [if_neg (show decRepr bs.length ≠ [] from natToBase_ne_nil 10 bs.length)]
  rw [decUsize_decRepr hlen, optCase_some, bind_ok]
  by_cases hbs : bs = []
  · subst hbs
    rw [if_pos (by simp)]
    rfl
  · have hne : bs.length ≠ 0 := by
      intro hc
      exact hbs (List.length_eq_zero.mp hc)
    rw [if_neg hne]
    rw [show (if bs.isEmpty then ([] : Str) else (bs.map encodeBlock).flatten) =
      (bs.map encodeBlock).flatten from by
        rw [if_neg (by simp [List.isEmpty_iff, hbs])]]
    rw [if_neg (by
      rw [flatten_encodeBlocks_length]
      omega)]
    rw [show (bs.map encodeBlock).flatten.take (bs.length * 8) =
      (bs.map encodeBlock).flatten from by
        apply List.take_of_length_le
        rw [flatten_encodeBlocks_length]
        omega]
    have hd := decodeBlocks_encode hWF []
    rw [List.append_nil] at hd
    rw [hd]
    rfl


theorem validate_parts {d : CoverageData} (h : d.validate = .ok ()) :
    checkIds 0 d.modules = .ok () ∧
      checkBlocks d.modules.length d.basic_blocks = .ok () := by
  unfold CoverageData.validate at h
  cases hc : checkIds 0 d.modules with
  | error e =>
    rw [hc, bind_err] at h
    cases h
  | ok u =>
    cases u
    rw [hc, bind_ok] at h
    exact ⟨rfl, h⟩

theorem from_reader_parts (flavor tailStream rest : Str) (ms' : List ModuleEntry)
    (v : ModuleTableVersion) (bs : List BasicBlock)
    (hflav : 10 ∉ flavor)
    (hmt : parse_module_table tailStream = .ok (ms', v, rest))
    (hbb : parse_bb_table rest = .ok bs)
    (hci : checkIds 0 ms' = .ok ())
    (hcb : checkBlocks ms'.length bs = .ok ()) :
    from_reader ((versionPfx ++ decRepr 2) ++ 10 :: ((flavorPfx ++ flavor) ++ 10 :: tailStream)) =
      .ok { header := { version := 2, flavor := flavor }, module_version := v,
            modules := ms', basic_blocks := bs } := by
  have h10dec : (10 : Nat) ∉ decRepr 2 := by decide
  simp only [from_reader]
  rw [show (versionPfx ++ decRepr 2) ++ 10 :: ((flavorPfx ++ flavor) ++ 10 :: tailStream) =
    versionPfx ++ decRepr 2 ++ 10 :: ((flavorPfx ++ flavor) ++ 10 :: tailStream) from by simp]
  rw [parse_header_line_append versionPfx (decRepr 2) _ (by decide) h10dec, bind_ok]
  dsimp only
  rw [show decU32? (decRepr 2) = some 2 from by decide, optCase_some, bind_ok]
  rw [if_neg (by decide)]
  rw [show (flavorPfx ++ flavor) ++ 10 :: tailStream =
    flavorPfx ++ flavor ++ 10 :: tailStream from by simp]
  rw [parse_header_line_append flavorPfx flavor _ (by decide) hflav, bind_ok]
  dsimp only
  rw [hmt, bind_ok, hbb, bind_ok]
  dsimp only
  simp only [CoverageData.validate]
  rw [hci, bind_ok, hcb, bind_ok]
  rfl


theorem checkIds_ok_get : ∀ (ms : List ModuleEntry) (i : Nat),
    checkIds i ms = .ok () → ∀ j (hj : j < ms.length), (ms.get ⟨j, hj⟩).id = i + j := by
  intro ms
  induction ms with
  | nil => intro i _ j hj; exact absurd hj (by simp)
  | cons m r ih =>
    intro i h j hj
    unfold checkIds at h
    by_cases hmi : m.id = i
    · rw [if_neg (not_not.mpr hmi)] at h
      cases j with
      | zero => simpa [List.get] using hmi
      | succ k =>
        have hk : k < r.length := by
          have := hj
          simp only [List.length_cons] at this
          omega
        have hrec := ih (i + 1) h k hk
        have hg : ((m :: r).get ⟨k + 1, hj⟩) = r.get ⟨k, hk⟩ := rfl
        rw [hg, hrec]
        omega
    · rw [if_pos hmi] at h
      cases h

/-- C1 (amended): the round-trip property holds for validated, range-
well-formed data whose header version is the supported value 2, whose
flavor contains no newline, whose module paths are newline-free and
trim-stable, and whose modules agree with the set-wide windows-fields
flag when the schema is versioned; the decoded value is `normalizeData`
of the input, which drops the fields the schema version cannot represent
AND materializes the encoder defaults (an absent `containing_id` decodes
as `some (-1)` under V3/V4, an absent `offset` as `some 0` under V4, and
absent `checksum`/`timestamp` as `some 0` whenever the set-wide windows
flag is on) — strictly more normalization than the claim states. -/
theorem claim_C1_roundtrip (d : CoverageData)
    (hval : d.validate = .ok ())
    (hver : d.header.version = 2)
    (hflav : 10 ∉ d.header.flavor)
    (hWF : DataWF d)
    (hpaths : ∀ m ∈ d.modules, PathWF m.path)
    (hwin : d.module_version ≠ ModuleTableVersion.Legacy →
      ∀ m ∈ d.modules, (m.checksum.isSome || m.timestamp.isSome) = anyWin d) :
    from_reader (to_writer d).1 = .ok (normalizeData d) := by
  obtain ⟨hEWF, hBWF, hmlen, hblen⟩ := hWF
  obtain ⟨hci, hcb⟩ := validate_parts hval
  have hseq : ∀ j (hj : j < d.modules.length), (d.modules.get ⟨j, hj⟩).id = j := by
    intro j hj
    simpa using checkIds_ok_get d.modules 0 hci j hj
  have hp10 : ∀ m ∈ d.modules, 10 ∉ m.path := fun m hm => (hpaths m hm).1
  cases hmveq : d.module_version with
  | Legacy =>
    have hrecV : ∀ m ∈ d.modules,
        parse_module_entry (trim (write_module_line m ModuleTableVersion.Legacy)) legacyColumns =
          .ok (normalizeEntry ModuleTableVersion.Legacy (anyWin d) m) := fun m hm =>
      parse_record_legacy m (hEWF m hm) (hpaths m hm) (anyWin d)
    have hout : (to_writer d).1 =
        (versionPfx ++ decRepr 2) ++ 10 :: ((flavorPfx ++ d.header.flavor) ++ 10 ::
          (moduleTablePfx ++ decRepr d.modules.length ++ [10] ++
            ((d.modules.map fun m => write_module_line m ModuleTableVersion.Legacy).flatten ++
              ((bbTablePfx ++ [32] ++ decRepr d.basic_blocks.length ++ strBytes " bbs") ++ 10 ::
                (if d.basic_blocks.isEmpty then []
                 else (d.basic_blocks.map encodeBlock).flatten))))) := by
      unfold to_writer
      rw [hval]
      dsimp only
      rw [hmveq, hver]
      rw [if_pos rfl]
      simp [List.append_assoc]
    rw [hout, from_reader_parts d.header.flavor _ _ _ ModuleTableVersion.Legacy d.basic_blocks hflav
      (parse_module_table_legacy d.modules (anyWin d) _ hmlen hp10 hrecV hseq)
      (parse_bb_table_emitted d.basic_blocks hblen hBWF)
      (by rw [checkIds_map_normalize]; exact hci)
      (by rw [List.length_map]; exact hcb)]
    rw [show ({ version := 2, flavor := d.header.flavor } : FileHeader) = d.header from by
      rw [← hver]]
    simp [normalizeData, hmveq]
  | V2 =>
    cases hw : anyWin d with
    | false =>
      have hrecV : ∀ m ∈ d.modules,
          parse_module_entry (trim (write_module_line m ModuleTableVersion.V2)) legacyColumns =
            .ok (normalizeEntry ModuleTableVersion.V2 false m) := by
        intro m hm
        exact parse_record_v2 m (hEWF m hm) (hpaths m hm) ((hwin (by rw [hmveq]; decide) m hm).trans hw)
      have hout : (to_writer d).1 =
          (versionPfx ++ decRepr 2) ++ 10 :: ((flavorPfx ++ d.header.flavor) ++ 10 ::
            (moduleTablePfx ++ strBytes "version " ++ decRepr ModuleTableVersion.V2.toNat ++
              strBytes ", count " ++ decRepr d.modules.length ++ [10] ++
              (columnsPfx ++ columnsLine ModuleTableVersion.V2 false ++ [10]) ++
              ((d.modules.map fun m => write_module_line m ModuleTableVersion.V2).flatten ++
                ((bbTablePfx ++ [32] ++ decRepr d.basic_blocks.length ++ strBytes " bbs") ++ 10 ::
                  (if d.basic_blocks.isEmpty then []
                   else (d.basic_blocks.map encodeBlock).flatten))))) := by
        unfold to_writer
        rw [hval]
        dsimp only
        rw [hmveq, hver, hw]
        rw [if_neg (by decide)]
        simp [List.append_assoc]
      rw [hout, from_reader_parts d.header.flavor _ _ _ ModuleTableVersion.V2 d.basic_blocks hflav
        (parse_module_table_versioned ModuleTableVersion.V2 (by decide) d.modules false legacyColumns
          (columnsLine ModuleTableVersion.V2 false) _ hmlen (by decide) (by decide) (by decide)
          hp10 hrecV hseq)
        (parse_bb_table_emitted d.basic_blocks hblen hBWF)
        (by rw [checkIds_map_normalize]; exact hci)
        (by rw [List.length_map]; exact hcb)]
      rw [show ({ version := 2, flavor := d.header.flavor } : FileHeader) = d.header from by
        rw [← hver]]
      simp [normalizeData, hmveq, hw]
    | true =>
      have hrecV : ∀ m ∈ d.modules,
          parse_module_entry (trim (write_module_line m ModuleTableVersion.V2)) colsV2win =
            .ok (normalizeEntry ModuleTableVersion.V2 true m) := by
        intro m hm
        exact parse_record_v2_win m (hEWF m hm) (hpaths m hm) ((hwin (by rw [hmveq]; decide) m hm).trans hw)
      have hout : (to_writer d).1 =
          (versionPfx ++ decRepr 2) ++ 10 :: ((flavorPfx ++ d.header.flavor) ++ 10 ::
            (moduleTablePfx ++ strBytes "version " ++ decRepr ModuleTableVersion.V2.toNat ++
              strBytes ", count " ++ decRepr d.modules.length ++ [10] ++
              (columnsPfx ++ columnsLine ModuleTableVersion.V2 true ++ [10]) ++
              ((d.modules.map fun m => write_module_line m ModuleTableVersion.V2).flatten ++
                ((bbTablePfx ++ [32] ++ decRepr d.basic_blocks.length ++ strBytes " bbs") ++ 10 ::
                  (if d.basic_blocks.isEmpty then []
                   else (d.basic_blocks.map encodeBlock).flatten))))) := by
        unfold to_writer
        rw [hval]
        dsimp only
        rw [hmveq, hver, hw]
        rw [if_neg (by decide)]
        simp [List.append_assoc]
      rw [hout, from_reader_parts d.header.flavor _ _ _ ModuleTableVersion.V2 d.basic_blocks hflav
        (parse_module_table_versioned ModuleTableVersion.V2 (by decide) d.modules true colsV2win
          (columnsLine ModuleTableVersion.V2 true) _ hmlen (by decide) (by decide) (by decide)
          hp10 hrecV hseq)
        (parse_bb_table_emitted d.basic_blocks hblen hBWF)
        (by rw [checkIds_map_normalize]; exact hci)
        (by rw [List.length_map]; exact hcb)]
      rw [show ({ version := 2, flavor := d.header.flavor } : FileHeader) = d.header from by
        rw [← hver]]
      simp [normalizeData, hmveq, hw]
  | V3 =>
    cases hw : anyWin d with
    | false =>
      have hrecV : ∀ m ∈ d.modules,
          parse_module_entry (trim (write_module_line m ModuleTableVersion.V3)) colsV3 =
            .ok (normalizeEntry ModuleTableVersion.V3 false m) := by
        intro m hm
        exact parse_record_v3 m (hEWF m hm) (hpaths m hm) ((hwin (by rw [hmveq]; decide) m hm).trans hw)
      have hout : (to_writer d).1 =
          (versionPfx ++ decRepr 2) ++ 10 :: ((flavorPfx ++ d.header.flavor) ++ 10 ::
            (moduleTablePfx ++ strBytes "version " ++ decRepr ModuleTableVersion.V3.toNat ++
              strBytes ", count " ++ decRepr d.modules.length ++ [10] ++
              (columnsPfx ++ columnsLine ModuleTableVersion.V3 false ++ [10]) ++
              ((d.modules.map fun m => write_module_line m ModuleTableVersion.V3).flatten ++
                ((bbTablePfx ++ [32] ++ decRepr d.basic_blocks.length ++ strBytes " bbs") ++ 10 ::
                  (if d.basic_blocks.isEmpty then []
                   else (d.basic_blocks.map encodeBlock).flatten))))) := by
        unfold to_writer
        rw [hval]
        dsimp only
        rw [hmveq, hver, hw]
        rw [if_neg (by decide)]
        simp [List.append_assoc]
      rw [hout, from_reader_parts d.header.flavor _ _ _ ModuleTableVersion.V3 d.basic_blocks hflav
        (parse_module_table_versioned ModuleTableVersion.V3 (by decide) d.modules false colsV3
          (columnsLine ModuleTableVersion.V3 false) _ hmlen (by decide) (by decide) (by decide)
          hp10 hrecV hseq)
        (parse_bb_table_emitted d.basic_blocks hblen hBWF)
        (by rw [checkIds_map_normalize]; exact hci)
        (by rw [List.length_map]; exact hcb)]
      rw [show ({ version := 2, flavor := d.header.flavor } : FileHeader) = d.header from by
        rw [← hver]]
      simp [normalizeData, hmveq, hw]
    | true =>
      have hrecV : ∀ m ∈ d.modules,
          parse_module_entry (trim (write_module_line m ModuleTableVersion.V3)) colsV3win =
            .ok (normalizeEntry ModuleTableVersion.V3 true m) := by
        intro m hm
        exact parse_record_v3_win m (hEWF m hm) (hpaths m hm) ((hwin (by rw [hmveq]; decide) m hm).trans hw)
      have hout : (to_writer d).1 =
          (versionPfx ++ decRepr 2) ++ 10 :: ((flavorPfx ++ d.header.flavor) ++ 10 ::
            (moduleTablePfx ++ strBytes "version " ++ decRepr ModuleTableVersion.V3.toNat ++
              strBytes ", count " ++ decRepr d.modules.length ++ [10] ++
              (columnsPfx ++ columnsLine ModuleTableVersion.V3 true ++ [10]) ++
              ((d.modules.map fun m => write_module_line m ModuleTableVersion.V3).flatten ++
                ((bbTablePfx ++ [32] ++ decRepr d.basic_blocks.length ++ strBytes " bbs") ++ 10 ::
                  (if d.basic_blocks.isEmpty then []
                   else (d.basic_blocks.map encodeBlock).flatten))))) := by
        unfold to_writer
        rw [hval]
        dsimp only
        rw [hmveq, hver, hw]
        rw [if_neg (by decide)]
        simp [List.append_assoc]
      rw [hout, from_reader_parts d.header.flavor _ _ _ ModuleTableVersion.V3 d.basic_blocks hflav
        (parse_module_table_versioned ModuleTableVersion.V3 (by decide) d.modules true colsV3win
          (columnsLine ModuleTableVersion.V3 true) _ hmlen (by decide) (by decide) (by decide)
          hp10 hrecV hseq)
        (parse_bb_table_emitted d.basic_blocks hblen hBWF)
        (by rw [checkIds_map_normalize]; exact hci)
        (by rw [List.length_map]; exact hcb)]
      rw [show ({ version := 2, flavor := d.header.flavor } : FileHeader) = d.header from by
        rw [← hver]]
      simp [normalizeData, hmveq, hw]
  | V4 =>
    cases hw : anyWin d with
    | false =>
      have hrecV : ∀ m ∈ d.modules,
          parse_module_entry (trim (write_module_line m ModuleTableVersion.V4)) colsV4 =
            .ok (normalizeEntry ModuleTableVersion.V4 false m) := by
        intro m hm
        exact parse_record_v4 m (hEWF m hm) (hpaths m hm) ((hwin (by rw [hmveq]; decide) m hm).trans hw)
      have hout : (to_writer d).1 =
          (versionPfx ++ decRepr 2) ++ 10 :: ((flavorPfx ++ d.header.flavor) ++ 10 ::
            (moduleTablePfx ++ strBytes "version " ++ decRepr ModuleTableVersion.V4.toNat ++
              strBytes ", count " ++ decRepr d.modules.length ++ [10] ++
              (columnsPfx ++ columnsLine ModuleTableVersion.V4 false ++ [10]) ++
              ((d.modules.map fun m => write_module_line m ModuleTableVersion.V4).flatten ++
                ((bbTablePfx ++ [32] ++ decRepr d.basic_blocks.length ++ strBytes " bbs") ++ 10 ::
                  (if d.basic_blocks.isEmpty then []
                   else (d.basic_blocks.map encodeBlock).flatten))))) := by
        unfold to_writer
        rw [hval]
        dsimp only
        rw [hmveq, hver, hw]
        rw [if_neg (by decide)]
        simp [List.append_assoc]
      rw [hout, from_reader_parts d.header.flavor _ _ _ ModuleTableVersion.V4 d.basic_blocks hflav
        (parse_module_table_versioned ModuleTableVersion.V4 (by decide) d.modules false colsV4
          (columnsLine ModuleTableVersion.V4 false) _ hmlen (by decide) (by decide) (by decide)
          hp10 hrecV hseq)
        (parse_bb_table_emitted d.basic_blocks hblen hBWF)
        (by rw [checkIds_map_normalize]; exact hci)
        (by rw [List.length_map]; exact hcb)]
      rw [show ({ version := 2, flavor := d.header.flavor } : FileHeader) = d.header from by
        rw [← hver]]
      simp [normalizeData, hmveq, hw]
    | true =>
      have hrecV : ∀ m ∈ d.modules,
          parse_module_entry (trim (write_module_line m ModuleTableVersion.V4)) colsV4win =
            .ok (normalizeEntry ModuleTableVersion.V4 true m) := by
        intro m hm
        exact parse_record_v4_win m (hEWF m hm) (hpaths m hm) ((hwin (by rw [hmveq]; decide) m hm).trans hw)
      have hout : (to_writer d).1 =
          (versionPfx ++ decRepr 2) ++ 10 :: ((flavorPfx ++ d.header.flavor) ++ 10 ::
            (moduleTablePfx ++ strBytes "version " ++ decRepr ModuleTableVersion.V4.toNat ++
              strBytes ", count " ++ decRepr d.modules.length ++ [10] ++
              (columnsPfx ++ columnsLine ModuleTableVersion.V4 true ++ [10]) ++
              ((d.modules.map fun m => write_module_line m ModuleTableVersion.V4).flatten ++
                ((bbTablePfx ++ [32] ++ decRepr d.basic_blocks.length ++ strBytes " bbs") ++ 10 ::
                  (if d.basic_blocks.isEmpty then []
                   else (d.basic_blocks.map encodeBlock).flatten))))) := by
        unfold to_writer
        rw [hval]
        dsimp only
        rw [hmveq, hver, hw]
        rw [if_neg (by decide)]
        simp [List.append_assoc]
      rw [hout, from_reader_parts d.header.flavor _ _ _ ModuleTableVersion.V4 d.basic_blocks hflav
        (parse_module_table_versioned ModuleTableVersion.V4 (by decide) d.modules true colsV4win
          (columnsLine ModuleTableVersion.V4 true) _ hmlen (by decide) (by decide) (by decide)
          hp10 hrecV hseq)
        (parse_bb_table_emitted d.basic_blocks hblen hBWF)
        (by rw [checkIds_map_normalize]; exact hci)
        (by rw [List.length_map]; exact hcb)]
      rw [show ({ version := 2, flavor := d.header.flavor } : FileHeader) = d.header from by
        rw [← hver]]
      simp [normalizeData, hmveq, hw]


/-- C1 counterexample to the claim as stated: `c1x` is valid and tagged
V3, a version under which `containing_id` is representable, and its
module has `containing_id` absent; yet decoding the encoder's output
yields `containing_id = some (-1)`, so decode ∘ encode is NOT the
identity on the V3-representable fields. -/
theorem claim_C1_counterexample :
    c1x.validate = .ok () ∧
    (c1x.modules.map fun m => m.containing_id) = [none] ∧
    from_reader (to_writer c1x).1 =
      .ok { c1x with
        modules := [{ id := 0, base := 0x400000, end_ := 0x450000, entry := 0x401000,
                      path := strBytes "/bin/test", containing_id := some (-1) }] } ∧
    from_reader (to_writer c1x).1 ≠ .ok c1x := by decide

/-- Witness instantiating the amended round-trip theorem at `c1x`. -/
theorem claim_C1_roundtrip_witness :
    from_reader (to_writer c1x).1 = .ok (normalizeData c1x) :=
  claim_C1_roundtrip c1x (by decide) (by decide) (by decide) (by decide) (by decide) (by decide)


/-- C2: the claim is false of the code: the Columns header uses the
set-wide windows flag, but `write_module_line` recomputes the flag per
module, so in a valid mixed V2 set the module lacking checksum and
timestamp emits a 5-field record line under a 7-column header; decoding
the encoder output fails with a column-count mismatch on that line
instead of substituting 0. -/
theorem claim_C2_mixed_windows_bug :
    c2x.validate = .ok () ∧
    anyWin c2x = true ∧
    (splitComma (columnsLine ModuleTableVersion.V2 (anyWin c2x))).length = 7 ∧
    (moduleLineParts c2a ModuleTableVersion.V2).length = 7 ∧
    (moduleLineParts c2b ModuleTableVersion.V2).length = 5 ∧
    from_reader (to_writer c2x).1 =
      .error (.invalidModuleTable (.columnCountMismatch
        (strBytes "1, 0x0000000000500000, 0x0000000000550000, 0x0000000000000000, /b"))) := by
  decide

/-- C7: the claim is false of the code: `writeln!` inserts a space
between the prefix and the count, and `BB_TABLE_PREFIX` already ends in
a space, so the emitted header line is `BB Table:  <count> bbs` with TWO
spaces, not the wire-format `BB Table: <count> bbs`. -/
theorem claim_C7_bb_header_double_space :
    bbTablePfx = strBytes "BB Table: " ∧
    c7x.validate = .ok () ∧
    (to_writer c7x).1 =
      strBytes "DRCOV VERSION: 2\nDRCOV FLAVOR: drcov\nModule Table: 0\nBB Table:  0 bbs\n" ∧
    (to_writer c7x).1 ≠
      strBytes "DRCOV VERSION: 2\nDRCOV FLAVOR: drcov\nModule Table: 0\nBB Table: 0 bbs\n" := by
  decide

/-- C8: a well-formed version line whose parsed value differs from the
supported value 2 makes `from_reader` fail with `UnsupportedVersion`
carrying the rejected value, whatever bytes follow the line. -/
theorem claim_C8_unsupported_version (c rest : Str) (v : Nat)
    (h10 : 10 ∉ c) (hv : decU32? c = some v) (hne : v ≠ SUPPORTED_FILE_VERSION) :
    from_reader (versionPfx ++ c ++ 10 :: rest) = .error (.unsupportedVersion v) := by
  unfold from_reader
  rw [parse_header_line_append versionPfx c rest (by decide) h10, bind_ok]
  dsimp only
  rw [hv, optCase_some, bind_ok]
  rw [if_pos hne]
  rfl

/-- Witness instantiating C8 at version text `3` with junk after the
version line. -/
theorem claim_C8_witness :
    from_reader (versionPfx ++ strBytes "3" ++ 10 :: strBytes "junk") =
      .error (.unsupportedVersion 3) :=
  claim_C8_unsupported_version (strBytes "3") (strBytes "junk") 3 (by decide) (by decide)
    (by decide)

/-- C9: `to_writer` validates before writing: it returns the validation
error exactly when validation fails, and in that case the emitted byte
list is empty; on valid input no error is returned. -/
theorem claim_C9_validate_before_write (d : CoverageData) :
    (∀ e, d.validate = .error e ↔ to_writer d = ([], some e)) ∧
    (d.validate = .ok () → (to_writer d).2 = none) := by
  cases hv : d.validate with
  | error e2 =>
    have hw : to_writer d = ([], some e2) := by unfold to_writer; rw [hv]
    refine ⟨fun e => ⟨fun h => ?_, fun h => ?_⟩, fun h => ?_⟩
    · injection h with h2
      rw [hw, h2]
    · rw [hw] at h
      simp only [Prod.mk.injEq, true_and, Option.some.injEq] at h
      rw [h]
    · exact Except.noConfusion h
  | ok u =>
    cases u
    have hw2 : (to_writer d).2 = none := by unfold to_writer; rw [hv]
    refine ⟨fun e => ⟨fun h => ?_, fun h => ?_⟩, fun _ => hw2⟩
    · exact Except.noConfusion h
    · have h2 := congrArg Prod.snd h
      rw [hw2] at h2
      exact Option.noConfusion h2

/-- Witness instantiating C9 at an aggregate whose module has the
non-sequential id 5: the writer returns the validation error and zero
bytes. -/
theorem claim_C9_witness :
    to_writer c9x = ([], some (.validationError (.nonSequentialModuleId 5 0))) :=
  ((claim_C9_validate_before_write c9x).1 _).mp (by decide)

/-- C10: the only errors `parse_module_entry` can produce are the
column-count mismatch (carrying the line) and the missing-or-invalid-id
error; concretely, unparsable hex in `start`/`end`/`entry` decodes to 0
and unparsable text in the optional columns decodes to absent. -/
theorem claim_C10_entry_errors :
    (∀ l c e, parse_module_entry l c = .error e →
      e = .invalidModuleTable (.columnCountMismatch l) ∨
        e = .invalidModuleTable .missingOrInvalidId) ∧
    parse_module_entry (strBytes "7, q, g, h, j, k, l, m, /p") colsV4win =
      .ok { id := 7, base := 0, end_ := 0, entry := 0, path := strBytes "/p" } := by
  constructor
  · intro l c e h
    unfold parse_module_entry at h
    dsimp only at h
    split at h
    · left
      injection h with h2
      exact h2.symm
    · unfold optCase at h
      split at h
      · exact Except.noConfusion h
      · right
        injection h with h2
        exact h2.symm
  · decide

/-- Witness instantiating C10 at a one-token line against the legacy
columns: the resulting error is the column-count mismatch. -/
theorem claim_C10_witness :
    Error.invalidModuleTable (MtMsg.columnCountMismatch (strBytes "a")) =
        .invalidModuleTable (.columnCountMismatch (strBytes "a")) ∨
      Error.invalidModuleTable (MtMsg.columnCountMismatch (strBytes "a")) =
        .invalidModuleTable .missingOrInvalidId :=
  claim_C10_entry_errors.1 (strBytes "a") legacyColumns _ (by decide)


theorem checkIds_ok_iff : ∀ (ms : List ModuleEntry) (i : Nat),
    checkIds i ms = .ok () ↔ ∀ j m, ms[j]? = some m → m.id = i + j := by
  intro ms
  induction ms with
  | nil =>
    intro i
    constructor
    · intro _ j m hj
      simp at hj
    · intro _
      rfl
  | cons m r ih =>
    intro i
    constructor
    · intro h j mj hj
      unfold checkIds at h
      by_cases hmi : m.id = i
      · rw [if_neg (not_not.mpr hmi)] at h
        cases j with
        | zero =>
          simp at hj
          subst hj
          omega
        | succ k =>
          have := (ih (i + 1)).mp h k mj (by simpa using hj)
          omega
      · rw [if_pos hmi] at h
        cases h
    · intro hall
      unfold checkIds
      have h0 : m.id = i := by
        have := hall 0 m (by simp)
        omega
      rw [if_neg (not_not.mpr h0)]
      exact (ih (i + 1)).mpr fun j mj hj => by
        have := hall (j + 1) mj (by simpa using hj)
        omega

theorem checkIds_err_at : ∀ (ms : List ModuleEntry) (i k : Nat) (mk2 : ModuleEntry),
    ms[k]? = some mk2 →
    (∀ j mj, j < k → ms[j]? = some mj → mj.id = i + j) →
    mk2.id ≠ i + k →
    checkIds i ms = .error (.validationError (.nonSequentialModuleId mk2.id (i + k))) := by
  intro ms
  induction ms with
  | nil =>
    intro i k mk2 hk
    simp at hk
  | cons m r ih =>
    intro i k mk2 hk hpre hbad
    cases k with
    | zero =>
      have hm : m = mk2 := by simpa using hk
      subst hm
      unfold checkIds
      rw [if_pos (show m.id ≠ i by omega)]
      simp
    | succ k2 =>
      have h0 : m.id = i := by
        have := hpre 0 m (by omega) (by simp)
        omega
      unfold checkIds
      rw [if_neg (not_not.mpr h0)]
      have harr : i + (k2 + 1) = (i + 1) + k2 := by omega
      rw [harr]
      exact ih (i + 1) k2 mk2 (by simpa using hk)
        (fun j mj hj hjq => by
          have := hpre (j + 1) mj (by omega) (by simpa using hjq)
          omega)
        (by omega)

theorem checkBlocks_ok_iff : ∀ (bs : List BasicBlock) (n : Nat),
    checkBlocks n bs = .ok () ↔ ∀ b ∈ bs, b.module_id < n := by
  intro bs
  induction bs with
  | nil =>
    intro n
    constructor
    · intro _ b hb
      simp at hb
    · intro _
      rfl
  | cons b r ih =>
    intro n
    constructor
    · intro h c hc
      unfold checkBlocks at h
      by_cases hb : b.module_id ≥ n
      · rw [if_pos hb] at h
        cases h
      · rw [if_neg hb] at h
        rcases List.mem_cons.mp hc with hcb | hcr
        · rw [hcb]
          omega
        · exact (ih n).mp h c hcr
    · intro hall
      unfold checkBlocks
      rw [if_neg (by have := hall b (by simp); omega)]
      exact (ih n).mpr fun c hc => hall c (by simp [hc])

theorem checkBlocks_err_at : ∀ (bs : List BasicBlock) (n k : Nat) (bk : BasicBlock),
    bs[k]? = some bk →
    (∀ j bj, j < k → bs[j]? = some bj → bj.module_id < n) →
    ¬ bk.module_id < n →
    checkBlocks n bs = .error (.validationError (.invalidBlockModuleId bk.module_id)) := by
  intro bs
  induction bs with
  | nil =>
    intro n k bk hk
    simp at hk
  | cons b r ih =>
    intro n k bk hk hpre hbad
    cases k with
    | zero =>
      have hb : b = bk := by simpa using hk
      subst hb
      unfold checkBlocks
      rw [if_pos (by omega)]
    | succ k2 =>
      have h0 : b.module_id < n := hpre 0 b (by omega) (by simp)
      unfold checkBlocks
      rw [if_neg (by omega)]
      exact ih n k2 bk (by simpa using hk)
        (fun j bj hj hjq => hpre (j + 1) bj (by omega) (by simpa using hjq)) hbad

/-- C3: `validate` succeeds exactly when module ids are sequential from
0 and every block references an existing module; on failure it reports
the first violation in order — the offending module id with the expected
index, or the offending block module reference — and, the model being a
pure function, the data is left untouched. -/
theorem claim_C3_validate (d : CoverageData) :
    (d.validate = .ok () ↔
      (∀ (j : Nat) (m : ModuleEntry), d.modules[j]? = some m → m.id = j) ∧
        ∀ b ∈ d.basic_blocks, b.module_id < d.modules.length) ∧
    (∀ (i : Nat) (m : ModuleEntry), d.modules[i]? = some m →
      (∀ (j : Nat) (mj : ModuleEntry), j < i → d.modules[j]? = some mj → mj.id = j) →
      m.id ≠ i →
      d.validate = .error (.validationError (.nonSequentialModuleId m.id i))) ∧
    (∀ (i : Nat) (b : BasicBlock), d.basic_blocks[i]? = some b →
      (∀ (j : Nat) (mj : ModuleEntry), d.modules[j]? = some mj → mj.id = j) →
      (∀ (j : Nat) (bj : BasicBlock), j < i → d.basic_blocks[j]? = some bj →
        bj.module_id < d.modules.length) →
      ¬ b.module_id < d.modules.length →
      d.validate = .error (.validationError (.invalidBlockModuleId b.module_id))) := by
  refine ⟨⟨fun h => ?_, fun h => ?_⟩, fun i m hi hpre hbad => ?_, fun i b hi hmods hpre hbad => ?_⟩
  · obtain ⟨hci, hcb⟩ := validate_parts h
    exact ⟨fun j m hj => by have := (checkIds_ok_iff d.modules 0).mp hci j m hj; omega,
      (checkBlocks_ok_iff d.basic_blocks d.modules.length).mp hcb⟩
  · unfold CoverageData.validate
    rw [(checkIds_ok_iff d.modules 0).mpr fun j m hj => by have := h.1 j m hj; omega, bind_ok]
    exact (checkBlocks_ok_iff d.basic_blocks d.modules.length).mpr h.2
  · unfold CoverageData.validate
    rw [checkIds_err_at d.modules 0 i m hi
      (fun j mj hj hjq => by have := hpre j mj hj hjq; omega) (by omega), bind_err]
    simp
  · unfold CoverageData.validate
    rw [(checkIds_ok_iff d.modules 0).mpr fun j mj hj => by have := hmods j mj hj; omega,
      bind_ok]
    exact checkBlocks_err_at d.basic_blocks d.modules.length i b hi hpre hbad


/-- Witness instantiating the first-violation part of C3: the second
module of `c3x` carries id 7 where index 1 is expected. -/
theorem claim_C3_witness :
    c3x.validate = .error (.validationError (.nonSequentialModuleId 7 1)) :=
  (claim_C3_validate c3x).2.1 1
    { id := 7, base := 0, end_ := 0, entry := 0, path := strBytes "/y" }
    (by decide)
    (fun j mj hj hjq => by
      have hj0 : j = 0 := by omega
      subst hj0
      simp only [c3x, List.getElem?_cons_zero, Option.some.injEq] at hjq
      rw [← hjq])
    (by decide)

theorem firstWsToken_tok {a : Str} (rest : Str) (hne : a ≠ [])
    (ha : ∀ x ∈ a, isWsByte x = false) :
    firstWsToken (a ++ 32 :: rest) = a := by
  unfold firstWsToken
  obtain ⟨x, xs, rfl⟩ := List.exists_cons_of_ne_nil hne
  rw [show (x :: xs) ++ 32 :: rest = x :: (xs ++ 32 :: rest) from rfl]
  rw [List.dropWhile_cons, if_neg (by simp [ha x (by simp)])]
  rw [show x :: (xs ++ 32 :: rest) = (x :: xs) ++ 32 :: rest from rfl]
  exact takeWhile_not_ws_append _ ha (by decide)

theorem decodeBlocks_spec : ∀ (n : Nat) (p : Str), p.length = n * 8 →
    (decodeBlocks n p).length = n ∧
    ∀ k, k < n → (decodeBlocks n p)[k]? = some
      { start := (p.drop (8 * k)).getD 0 0 + 256 * (p.drop (8 * k)).getD 1 0 +
          65536 * (p.drop (8 * k)).getD 2 0 + 16777216 * (p.drop (8 * k)).getD 3 0,
        size := (p.drop (8 * k)).getD 4 0 + 256 * (p.drop (8 * k)).getD 5 0,
        module_id := (p.drop (8 * k)).getD 6 0 + 256 * (p.drop (8 * k)).getD 7 0 } := by
  intro n
  induction n with
  | zero =>
    intro p hp
    exact ⟨rfl, fun k hk => absurd hk (Nat.not_lt_zero k)⟩
  | succ n ih =>
    intro p hp
    rcases p with _ | ⟨b0, p⟩
    · simp at hp
    rcases p with _ | ⟨b1, p⟩
    · simp at hp; omega
    rcases p with _ | ⟨b2, p⟩
    · simp at hp; omega
    rcases p with _ | ⟨b3, p⟩
    · simp at hp; omega
    rcases p with _ | ⟨b4, p⟩
    · simp at hp; omega
    rcases p with _ | ⟨b5, p⟩
    · simp at hp; omega
    rcases p with _ | ⟨b6, p⟩
    · simp at hp; omega
    rcases p with _ | ⟨b7, r⟩
    · simp at hp; omega
    have hr : r.length = n * 8 := by
      simp only [List.length_cons] at hp
      omega
    obtain ⟨ihlen, ihidx⟩ := ih r hr
    refine ⟨by simp [decodeBlocks, ihlen], fun k hk => ?_⟩
    cases k with
    | zero =>
      simp [decodeBlocks, leU32, leU16]
    | succ k2 =>
      have hstep := ihidx k2 (by omega)
      have hdrop : (b0 :: b1 :: b2 :: b3 :: b4 :: b5 :: b6 :: b7 :: r).drop (8 * (k2 + 1)) =
          r.drop (8 * k2) := by
        rw [show 8 * (k2 + 1) = 8 + 8 * k2 from by ring, ← List.drop_drop]
        rfl
      rw [hdrop]
      simpa [decodeBlocks] using hstep

/-- C4: against the canonical single-space header `BB Table: N bbs`
with N > 0, a payload shorter than N×8 bytes makes `parse_bb_table`
fail with the I/O error (no partial result), and a payload of exactly
N×8 bytes decodes to exactly N blocks, each taken from one consecutive
8-byte record as little-endian `u32` start, `u16` size, `u16`
module_id. -/
theorem claim_C4_bb_truncation (n : Nat) (payload : Str) (hn : 0 < n) (hn64 : n < 2 ^ 64) :
    (payload.length < n * 8 →
      parse_bb_table ((bbTablePfx ++ decRepr n ++ strBytes " bbs") ++ 10 :: payload) =
        .error .io) ∧
    (payload.length = n * 8 →
      ∃ bs, parse_bb_table ((bbTablePfx ++ decRepr n ++ strBytes " bbs") ++ 10 :: payload) =
          .ok bs ∧ bs.length = n ∧
        ∀ k, k < n → bs[k]? = some
          { start := (payload.drop (8 * k)).getD 0 0 + 256 * (payload.drop (8 * k)).getD 1 0 +
              65536 * (payload.drop (8 * k)).getD 2 0 +
              16777216 * (payload.drop (8 * k)).getD 3 0,
            size := (payload.drop (8 * k)).getD 4 0 + 256 * (payload.drop (8 * k)).getD 5 0,
            module_id :=
              (payload.drop (8 * k)).getD 6 0 + 256 * (payload.drop (8 * k)).getD 7 0 }) := by
  have hB10 : (10 : Nat) ∉ bbTablePfx ++ decRepr n ++ strBytes " bbs" := by
    intro hmem
    simp only [List.append_assoc, List.mem_append] at hmem
    rcases hmem with h | h | h
    · revert h; decide
    · have := (numPart_decRepr n).2 10 h
      omega
    · revert h; decide
  have hread := @readLine_append (bbTablePfx ++ decRepr n ++ strBytes " bbs") payload hB10
  have htrim : trim ((bbTablePfx ++ decRepr n ++ strBytes " bbs") ++ [10]) =
      bbTablePfx ++ decRepr n ++ strBytes " bbs" := by
    have := @trim_pre_tail (bbTablePfx ++ decRepr n) (strBytes " bbs")
      (append_ne_nil_left (by decide)) (by rfl) (by decide) (by decide)
    simpa [List.append_assoc] using this
  have htok : firstWsToken (decRepr n ++ strBytes " bbs") = decRepr n := by
    rw [show strBytes " bbs" = 32 :: strBytes "bbs" from by decide]
    exact firstWsToken_tok _ (natToBase_ne_nil 10 n)
      (fun x hx => not_ws_of_ge45 ((numPart_decRepr n).2 x hx).1)
  simp only [parse_bb_table]
  rw [hread]
  dsimp only
  rw [if_neg (by simp)]
  rw [htrim]
  rw [show bbTablePfx ++ decRepr n ++ strBytes " bbs" =
    bbTablePfx ++ (decRepr n ++ strBytes " bbs") from by simp [List.append_assoc]]
  rw [dropPfx?_append, optCase_some, bind_ok]
  rw [htok]
  rw [if_neg (show decRepr n ≠ [] from natToBase_ne_nil 10 n)]
  rw [decUsize_decRepr hn64, optCase_some, bind_ok]
  rw [if_neg (by omega)]
  constructor
  · intro hlt
    rw [if_pos hlt]
    rfl
  · intro hexact
    rw [if_neg (by omega)]
    rw [show payload.take (n * 8) = payload from by
      rw [← hexact]; exact List.take_length payload]
    obtain ⟨hlen2, hidx⟩ := decodeBlocks_spec n payload hexact
    exact ⟨decodeBlocks n payload, rfl, hlen2, hidx⟩

/-- Witness instantiating C4 at count 1: a 4-byte payload is rejected
with the I/O error, and one exact 8-byte record decodes little-endian. -/
theorem claim_C4_witness :
    (parse_bb_table ((bbTablePfx ++ decRepr 1 ++ strBytes " bbs") ++ 10 :: [5, 16, 0, 0]) =
      .error .io) ∧
    (∃ bs, parse_bb_table ((bbTablePfx ++ decRepr 1 ++ strBytes " bbs") ++ 10 ::
        [5, 16, 0, 0, 32, 0, 7, 0]) = .ok bs ∧ bs.length = 1 ∧
      ∀ k, k < 1 → bs[k]? = some
        { start := (([5, 16, 0, 0, 32, 0, 7, 0] : Str).drop (8 * k)).getD 0 0 +
            256 * (([5, 16, 0, 0, 32, 0, 7, 0] : Str).drop (8 * k)).getD 1 0 +
            65536 * (([5, 16, 0, 0, 32, 0, 7, 0] : Str).drop (8 * k)).getD 2 0 +
            16777216 * (([5, 16, 0, 0, 32, 0, 7, 0] : Str).drop (8 * k)).getD 3 0,
          size := (([5, 16, 0, 0, 32, 0, 7, 0] : Str).drop (8 * k)).getD 4 0 +
            256 * (([5, 16, 0, 0, 32, 0, 7, 0] : Str).drop (8 * k)).getD 5 0,
          module_id := (([5, 16, 0, 0, 32, 0, 7, 0] : Str).drop (8 * k)).getD 6 0 +
            256 * (([5, 16, 0, 0, 32, 0, 7, 0] : Str).drop (8 * k)).getD 7 0 }) :=
  ⟨(claim_C4_bb_truncation 1 [5, 16, 0, 0] (by decide) (by decide)).1 (by decide),
   (claim_C4_bb_truncation 1 [5, 16, 0, 0, 32, 0, 7, 0] (by decide) (by decide)).2 (by decide)⟩


/-- C5: decoding a record line is independent of column order — if the
two declared column lists are permutations of each other, both lines
split into as many values as their columns, and the induced name→value
maps agree on every column name the decoder consults, then the two
parses produce identical results. -/
theorem claim_C5_column_order (l1 l2 : Str) (c1 c2 : List Str)
    (_hperm : c1.Perm c2)
    (hlen1 : ((splitnComma c1.length l1).map trim).length = c1.length)
    (hlen2 : ((splitnComma c2.length l2).map trim).length = c2.length)
    (hmap : ∀ k ∈ keyNames, hmGet k (c1.zip ((splitnComma c1.length l1).map trim)) =
      hmGet k (c2.zip ((splitnComma c2.length l2).map trim))) :
    parse_module_entry l1 c1 = parse_module_entry l2 c2 := by
  unfold parse_module_entry
  dsimp only
  rw [if_neg (not_not.mpr hlen1), if_neg (not_not.mpr hlen2)]
  rw [hmap (strBytes "id") (by simp [keyNames]),
    hmap (strBytes "base") (by simp [keyNames]),
    hmap (strBytes "start") (by simp [keyNames]),
    hmap (strBytes "end") (by simp [keyNames]),
    hmap (strBytes "entry") (by simp [keyNames]),
    hmap (strBytes "path") (by simp [keyNames]),
    hmap (strBytes "containing_id") (by simp [keyNames]),
    hmap (strBytes "offset") (by simp [keyNames]),
    hmap (strBytes "checksum") (by simp [keyNames]),
    hmap (strBytes "timestamp") (by simp [keyNames])]

/-- Witness instantiating C5: the V3 record decoded against the
canonical column order and against a swapped order with correspondingly
swapped values. -/
theorem claim_C5_witness :
    parse_module_entry (strBytes "0, -1, 0x10, 0x20, 0x5, /p") colsV3 =
      parse_module_entry (strBytes "-1, 0, 0x10, 0x20, 0x5, /p")
        [strBytes "containing_id", strBytes "id", strBytes "start", strBytes "end",
         strBytes "entry", strBytes "path"] :=
  claim_C5_column_order _ _ _ _ (by decide) (by decide) (by decide) (by decide)

theorem find?_first {p : ModuleEntry → Bool} : ∀ (ms : List ModuleEntry) (m : ModuleEntry),
    ms.find? p = some m → p m = true ∧
      ∃ i, ms[i]? = some m ∧
        ∀ (j : Nat) (mj : ModuleEntry), j < i → ms[j]? = some mj → p mj = false := by
  intro ms
  induction ms with
  | nil =>
    intro m h
    simp at h
  | cons a r ih =>
    intro m h
    cases hpa : p a with
    | true =>
      rw [List.find?_cons_of_pos _ hpa] at h
      have hm : a = m := by simpa using h
      subst hm
      exact ⟨hpa, 0, by simp, fun j mj hj => absurd hj (by omega)⟩
    | false =>
      rw [List.find?_cons_of_neg _ (by simp [hpa])] at h
      obtain ⟨hpm, i, hi, hpre⟩ := ih m h
      refine ⟨hpm, i + 1, by simpa using hi, fun j mj hj hjq => ?_⟩
      cases j with
      | zero =>
        have : a = mj := by simpa using hjq
        subst this
        exact hpa
      | succ j2 =>
        exact hpre j2 mj (by omega) (by simpa using hjq)

/-- C6: `find_module_by_address` returns a module whose half-open
range `base ≤ addr < end` contains the address and that is the first
such module in insertion order (every earlier module does not contain
the address); it returns nothing exactly when no module contains the
address. -/
theorem claim_C6_find_by_address (d : CoverageData) (addr : Nat) :
    (∀ m : ModuleEntry, d.find_module_by_address addr = some m →
      (m.base ≤ addr ∧ addr < m.end_) ∧
      ∃ i, d.modules[i]? = some m ∧
        ∀ (j : Nat) (mj : ModuleEntry), j < i → d.modules[j]? = some mj →
          ¬(mj.base ≤ addr ∧ addr < mj.end_)) ∧
    (d.find_module_by_address addr = none ↔
      ∀ m ∈ d.modules, ¬(m.base ≤ addr ∧ addr < m.end_)) := by
  have hca : ∀ m : ModuleEntry, m.contains_address addr = true ↔
      m.base ≤ addr ∧ addr < m.end_ := by
    intro m
    simp [ModuleEntry.contains_address, ge_iff_le]
  constructor
  · intro m h
    obtain ⟨hpm, i, hi, hpre⟩ := find?_first d.modules m h
    exact ⟨(hca m).mp hpm, i, hi, fun j mj hj hjq => by
      have := hpre j mj hj hjq
      intro hc
      rw [(hca mj).mpr hc] at this
      cases this⟩
  · unfold CoverageData.find_module_by_address
    rw [List.find?_eq_none]
    constructor
    · intro hall m hm hc
      have := hall m hm
      rw [(hca m).mpr hc] at this
      exact this rfl
    · intro hall m hm hc
      exact hall m hm ((hca m).mp hc)

/-- Witness instantiating C6 at `c6x` and address 0x450000, contained
in both modules: the first module wins. -/
theorem claim_C6_witness :
    (c6m0.base ≤ 0x450000 ∧ (0x450000 : Nat) < c6m0.end_) ∧
    ∃ i, c6x.modules[i]? = some c6m0 ∧
      ∀ (j : Nat) (mj : ModuleEntry), j < i → c6x.modules[j]? = some mj →
        ¬(mj.base ≤ 0x450000 ∧ (0x450000 : Nat) < mj.end_) :=
  (claim_C6_find_by_address c6x 0x450000).1 c6m0 (by decide)

end Drcov
